import Mathlib

/-!
Verification of the zsh_plugin autocomplete engine (trie.c, priority_queue.c,
autocomplete.c) against its natural-language specification.

Commands are modelled as byte lists (`List Nat`): C strings are byte
sequences, and the code's behaviour on bytes `>= 128` (ALPHABET_SIZE) is
essential.  The trie's fixed 128-wide child array is modelled as a sparse
association list sorted by byte value, so that iterating it in order equals
the C loop `for (i = 0; i < ALPHABET_SIZE; i++)`.  Loops whose termination
is by a decreasing measure are written with an explicit fuel argument that
provably never runs out, keeping every definition kernel-evaluable.
-/

namespace ZshPlugin

/-- A command string: the byte values of the C string (no interior NUL). -/
abbrev Cmd := List Nat

/-! ## Trie data model (trie.h / trie.c)

`TrieNode` mirrors `struct TrieNode`: a child map (sparse form of
`children[ALPHABET_SIZE]`), `is_end_of_word`, `full_command`
(NULL modelled as `none`), `frequency` and `last_used`.
`ChildList` is the sorted byte-to-child association list. -/

mutual
inductive TrieNode where
  | mk : ChildList → Bool → Option Cmd → Int → Int → TrieNode
inductive ChildList where
  | nil : ChildList
  | cons : Nat → TrieNode → ChildList → ChildList
end

namespace TrieNode

def children : TrieNode → ChildList
  | .mk cs _ _ _ _ => cs

def is_end_of_word : TrieNode → Bool
  | .mk _ e _ _ _ => e

def full_command : TrieNode → Option Cmd
  | .mk _ _ fc _ _ => fc

def frequency : TrieNode → Int
  | .mk _ _ _ fr _ => fr

def last_used : TrieNode → Int
  | .mk _ _ _ _ lu => lu

end TrieNode

/-- Fresh node as built by `trie_node_create`: no children, not terminal,
no stored command, frequency 0, last_used 0. -/
def newNode : TrieNode := .mk .nil false none 0 0

/-- Look up the child for byte `c` (`node->children[c]`, NULL as `none`). -/
def childGet : ChildList → Nat → Option TrieNode
  | .nil, _ => none
  | .cons k n rest, c => if c = k then some n else childGet rest c

/-- Store child `n` at byte `c`, keeping the list sorted by byte value
(the C array is indexed, hence ordered, by byte value). -/
def childSet : ChildList → Nat → TrieNode → ChildList
  | .nil, c, n => .cons c n .nil
  | .cons k m rest, c, n =>
      if c < k then .cons c n (.cons k m rest)
      else if c = k then .cons c n rest
      else .cons k m (childSet rest c n)

mutual
/-- Number of nodes in the subtree rooted at a node (the node included). -/
def sizeTN : TrieNode → Nat
  | .mk cs _ _ _ _ => 1 + sizeCL cs
def sizeCL : ChildList → Nat
  | .nil => 0
  | .cons _ n rest => sizeTN n + sizeCL rest
end

mutual
/-- All terminal nodes in the subtree rooted at a node (the node included). -/
def termNodes : TrieNode → List TrieNode
  | .mk cs e fc fr lu =>
      (if e then [TrieNode.mk cs e fc fr lu] else []) ++ termNodesCL cs
def termNodesCL : ChildList → List TrieNode
  | .nil => []
  | .cons _ n rest => termNodes n ++ termNodesCL rest
end

/-- The `Trie` container: root node and `total_commands`. -/
structure Trie where
  root : TrieNode
  total_commands : Int

/-- Freshly created trie (`trie_create`). -/
def trieCreate : Trie := ⟨newNode, 0⟩

/-- Core of `trie_insert`: walk/create the path for the remaining bytes
`cs`, skipping bytes `>= 128` (ALPHABET_SIZE), and at the end mark the node
terminal (storing the full original command `full` and reporting whether
`total_commands` must be bumped), then increment frequency and stamp
`last_used` with the current time `now`.  Returns the rebuilt node and the
"newly terminal" flag. -/
def insertAux (now : Int) (full : Cmd) : TrieNode → Cmd → TrieNode × Bool
  | .mk cs e fc fr _, [] =>
      let e' := true
      let fc' := if e then fc else some full
      (.mk cs e' fc' (fr + 1) now, !e)
  | .mk cs e fc fr lu, c :: rest =>
      if 128 ≤ c then insertAux now full (.mk cs e fc fr lu) rest
      else
        let child := (childGet cs c).getD newNode
        let (child', added) := insertAux now full child rest
        (.mk (childSet cs c child') e fc fr lu, added)

/-- Model of `trie_insert`: no-op on the empty command, otherwise insert
along the (skipping) path and bump `total_commands` when a new terminal
node was created. -/
def trieInsert (now : Int) (t : Trie) (command : Cmd) : Trie :=
  if command = [] then t
  else
    let (root', added) := insertAux now command t.root command
    ⟨root', t.total_commands + (if added then 1 else 0)⟩

/-- Plain walk used by `trie_search`, `trie_get_best_completion`,
`trie_update_frequency` and `trie_find_node`: a byte `>= 128` or a missing
child aborts the walk (returns `none`). -/
def walkNode : TrieNode → Cmd → Option TrieNode
  | n, [] => some n
  | n, c :: rest =>
      if 128 ≤ c then none
      else match childGet (TrieNode.children n) c with
        | some ch => walkNode ch rest
        | none => none

/-- Walk along the same path `trie_insert` uses: bytes `>= 128` are
skipped rather than rejected.  `none` when a needed child is missing. -/
def walkSkip : TrieNode → Cmd → Option TrieNode
  | n, [] => some n
  | n, c :: rest =>
      if 128 ≤ c then walkSkip n rest
      else match childGet (TrieNode.children n) c with
        | some ch => walkSkip ch rest
        | none => none

/-- Model of `trie_search`: the prefix path exists (terminal not required). -/
def trieSearch (t : Trie) (pfx : Cmd) : Bool :=
  (walkNode t.root pfx).isSome

/-- Frequency stored at the node `trie_insert` would end on (0 when the
node does not exist yet). -/
def freqAtS (t : Trie) (cmd : Cmd) : Int :=
  match walkSkip t.root cmd with
  | some n => n.frequency
  | none => 0

/-- Whether the node at the insert path of `cmd` exists and is terminal:
this is exactly the test `trie_insert` uses to decide whether
`total_commands` is incremented, i.e. whether the index already
"contains" the command. -/
def isTermAtS (t : Trie) (cmd : Cmd) : Bool :=
  match walkSkip t.root cmd with
  | some n => n.is_end_of_word
  | none => false

/-- Update the fields of a node along a plain walk (used to model the
in-place mutations of `trie_update_frequency` and `load_trie_from_file`).
`f` rewrites the (is_end_of_word, full_command, frequency, last_used)
fields of the final node; nodes off the path are untouched, and a failed
walk leaves the tree unchanged. -/
def updNode (f : TrieNode → TrieNode) : TrieNode → Cmd → TrieNode
  | n, [] => f n
  | n, c :: rest =>
      if 128 ≤ c then n
      else match childGet (TrieNode.children n) c with
        | some ch => .mk (childSet (TrieNode.children n) c (updNode f ch rest))
            (TrieNode.is_end_of_word n) (TrieNode.full_command n)
            (TrieNode.frequency n) (TrieNode.last_used n)
        | none => n

/-- Recency-plus-frequency score `trie_get_best_completion` computes for a
terminal node: `frequency * 100 + (50 if now - last_used < 3600 else 0)`. -/
def complScore (now : Int) (n : TrieNode) : Int :=
  n.frequency * 100 + (if now - n.last_used < 3600 then 50 else 0)

/-- Push the children of a node onto the DFS stack in byte order, exactly
like `for (i = 0; i < ALPHABET_SIZE && stack_top < 999; i++)`: each child
is pushed only while the running `stack_top` counter is below 999, so
children beyond that bound are silently dropped. -/
def pushKids : ChildList → List TrieNode → Nat → List TrieNode × Nat
  | .nil, st, top => (st, top)
  | .cons _ n rest, st, top =>
      if top < 999 then pushKids rest (n :: st) (top + 1)
      else pushKids rest st top

/-- The DFS loop of `trie_get_best_completion`.  `stack`/`top` mirror the
1000-slot explicit stack and `stack_top` (the list head is the top slot);
`bs`/`best` mirror `best_score` (initially -1) and `best_node`.  The
`fuel` argument only bounds the recursion: every iteration pops one node
of the finite forest, so with `fuel` at least the total node count of the
stack the zero-fuel branch is never reached
(see `dfsLoop_spec`). -/
def dfsLoop (now : Int) : Nat → List TrieNode → Nat → Int → Option TrieNode → Option TrieNode
  | 0, _, _, _, best => best
  | _ + 1, [], _, _, best => best
  | fuel + 1, node :: rest, top, bs, best =>
      let (bs', best') :=
        if node.is_end_of_word then
          let score := complScore now node
          if bs < score then (score, some node) else (bs, best)
        else (bs, best)
      let (st', top') := pushKids (TrieNode.children node) rest (top - 1)
      dfsLoop now fuel st' top' bs' best'

/-- Model of `trie_get_best_completion`: walk to the prefix node, DFS the
subtree for the terminal node with the highest score, and return its
stored command (NULL when the prefix is absent, no terminal was scored,
or the best node stores no command). -/
def bestCompletion (now : Int) (t : Trie) (pfx : Cmd) : Option Cmd :=
  match walkNode t.root pfx with
  | none => none
  | some sub =>
      match dfsLoop now (sizeTN sub) [sub] 1 (-1) none with
      | some bn => bn.full_command
      | none => none

/-- Model of `trie_update_frequency`: plain walk to the command's node;
if it exists and is terminal, increment frequency and refresh
`last_used`; otherwise a no-op. -/
def trieUpdateFrequency (now : Int) (t : Trie) (cmd : Cmd) : Trie :=
  match walkNode t.root cmd with
  | some n =>
      if n.is_end_of_word then
        ⟨updNode (fun m => .mk (TrieNode.children m) (TrieNode.is_end_of_word m)
            (TrieNode.full_command m) (TrieNode.frequency m + 1) now) t.root cmd,
          t.total_commands⟩
      else t
  | none => t

/-! ## Priority queue model (priority_queue.h / priority_queue.c)

The C structure is a fixed 100-slot array of `CommandEntry*` where slots
`0 .. size-1` are non-NULL and the rest are NULL.  It is modelled as a
`List Entry` of length `size`; reading an index `>= size` (a NULL slot in
C, i.e. undefined behaviour) yields `none`, and an operation that would
dereference such a slot returns `none` as a whole ("crash"). -/

/-- MAX_MRU_SIZE. -/
def pqCapacity : Nat := 100

/-- Model of `CommandEntry`. -/
structure Entry where
  command : Cmd
  timestamp : Int
  frequency : Int
  priority_score : Int
deriving DecidableEq

/-- Model of `pq_calculate_priority`: frequency weight plus the stepped
recency weight. -/
def calcPriority (now freq ts : Int) : Int :=
  let age := now - ts
  freq * 100 +
    (if age < 300 then 200
     else if age < 1800 then 100
     else if age < 3600 then 50
     else if age < 86400 then 25
     else 0)

/-- Model of `pq_create_entry` (allocation always succeeds). -/
def mkEntry (now : Int) (command : Cmd) (freq ts : Int) : Entry :=
  ⟨command, ts, freq, calcPriority now freq ts⟩

/-- Score of the entry at a slot, with an arbitrary default for absent
slots; every use is guarded so that the default is never compared. -/
def sc (l : List Entry) (i : Nat) : Int :=
  match l.get? i with
  | some e => e.priority_score
  | none => 0

/-- Model of `pq_heapify_up`.  The C function recurses from `index` to
`(index-1)/2`; the fuel is the starting index, which bounds the recursion
depth (the parent index is strictly smaller).  Reading an absent slot —
in C a NULL dereference — yields `none`. -/
def heapifyUpF (now : Int) : Nat → List Entry → Nat → Option (List Entry)
  | _, l, 0 => some l
  | 0, _, _ + 1 => none
  | fuel + 1, l, i + 1 =>
      let p := (i + 1 - 1) / 2
      match l.get? (i + 1), l.get? p with
      | some ei, some ep =>
          if ep.priority_score < ei.priority_score then
            heapifyUpF now fuel ((l.set (i + 1) ep).set p ei) p
          else some l
      | _, _ => none

/-- Entry point of `pq_heapify_up` with sufficient fuel. -/
def heapifyUp (now : Int) (l : List Entry) (i : Nat) : Option (List Entry) :=
  heapifyUpF now i l i

/-- Model of `pq_heapify_down`.  All the C reads are guarded by
`left < size` / `right < size`, so the walk is total; the fuel
`l.length - i` bounds the recursion (the child index is strictly
larger). -/
def heapifyDownF : Nat → List Entry → Nat → List Entry
  | 0, l, _ => l
  | fuel + 1, l, i =>
      let big1 :=
        match l.get? (2 * i + 1), l.get? i with
        | some el, some ei =>
            if ei.priority_score < el.priority_score then 2 * i + 1 else i
        | _, _ => i
      let big2 :=
        match l.get? (2 * i + 2), l.get? big1 with
        | some er, some eb =>
            if eb.priority_score < er.priority_score then 2 * i + 2 else big1
        | _, _ => big1
      if big2 = i then l
      else
        match l.get? i, l.get? big2 with
        | some ei, some eb => heapifyDownF fuel ((l.set i eb).set big2 ei) big2
        | _, _ => l

/-- Entry point of `pq_heapify_down` with sufficient fuel. -/
def heapifyDown (l : List Entry) (i : Nat) : List Entry :=
  heapifyDownF (l.length - i) l i

/-- Index of the first entry whose command equals `cmd`
(the duplicate scan at the top of `pq_insert`). -/
def findCmdIdx (cmd : Cmd) : List Entry → Nat → Option Nat
  | [], _ => none
  | e :: rest, i => if e.command = cmd then some i else findCmdIdx cmd rest (i + 1)

/-- Linear scan for the minimum-priority slot (`min_index` in
`pq_insert`): starts at slot 0 and moves only on strictly smaller
scores. -/
def minIdxGo : List Entry → Nat → Int → Nat → Nat
  | [], _, _, best => best
  | e :: rest, i, bsc, best =>
      if e.priority_score < bsc then minIdxGo rest (i + 1) e.priority_score i
      else minIdxGo rest (i + 1) bsc best

/-- Index of the minimum-priority entry of a non-empty list. -/
def minIdx : List Entry → Nat
  | [] => 0
  | e :: rest => minIdxGo rest 1 e.priority_score 0

/-- Model of `pq_insert`.  Existing command: overwrite its fields and
re-heapify both ways.  New command with the queue at capacity: destroy the
minimum-score entry, move the last slot into its place, shrink, and
re-heapify from there — when the minimum IS the last slot this calls
`pq_heapify_up` on the now-NULL slot at the new size, a crash (`none`).
Then append the new entry and sift it up. -/
def pqInsert (now : Int) (l : List Entry) (cmd : Cmd) (freq ts : Int) :
    Option (List Entry) :=
  match findCmdIdx cmd l 0 with
  | some i =>
      let e : Entry := ⟨cmd, ts, freq, calcPriority now freq ts⟩
      let l1 := l.set i e
      match heapifyUp now l1 i with
      | some l2 => some (heapifyDown l2 i)
      | none => none
  | none =>
      let step1 : Option (List Entry) :=
        if pqCapacity ≤ l.length then
          let m := minIdx l
          match l.get? (l.length - 1) with
          | some lastE =>
              let l1 := (l.set m lastE).dropLast
              match heapifyUp now l1 m with
              | some l2 => some (heapifyDown l2 m)
              | none => none
          | none => some l
        else some l
      match step1 with
      | some l1 => heapifyUp now (l1 ++ [mkEntry now cmd freq ts]) l1.length
      | none => none

/-- Model of `pq_extract_max`: returns the root (NULL on an empty queue),
moves the last slot to the root, shrinks, and sifts down. -/
def pqExtractMax (l : List Entry) : Option Entry × List Entry :=
  match l with
  | [] => (none, [])
  | e :: _ =>
      match l.get? (l.length - 1) with
      | some lastE =>
          let l1 := (l.set 0 lastE).dropLast
          (some e, if 0 < l1.length then heapifyDown l1 0 else l1)
      | none => (some e, l)

/-- Model of `pq_update_command`: bump an existing entry's frequency,
stamp its timestamp, recompute its score and re-heapify both ways;
fall back to `pq_insert(cmd, 1, now)` when absent. -/
def pqUpdateCommand (now : Int) (l : List Entry) (cmd : Cmd) :
    Option (List Entry) :=
  match findCmdIdx cmd l 0 with
  | some i =>
      match l.get? i with
      | some e =>
          let e' : Entry := ⟨e.command, now, e.frequency + 1,
            calcPriority now (e.frequency + 1) now⟩
          let l1 := l.set i e'
          match heapifyUp now l1 i with
          | some l2 => some (heapifyDown l2 i)
          | none => none
      | none => none
  | none => pqInsert now l cmd 1 now

/-- A mutating BoundedRankedSet operation together with the wall-clock
time at which it runs. -/
inductive PQOp where
  | ins (now : Int) (cmd : Cmd) (freq ts : Int)
  | upd (now : Int) (cmd : Cmd)
  | ext

/-- Run one operation; `none` propagates a crash. -/
def runPQOp (l : List Entry) : PQOp → Option (List Entry)
  | .ins now cmd freq ts => pqInsert now l cmd freq ts
  | .upd now cmd => pqUpdateCommand now l cmd
  | .ext => some (pqExtractMax l).2

/-- Run a sequence of operations from the empty queue (`pq_create`). -/
def runPQ (ops : List PQOp) : Option (List Entry) :=
  ops.foldl (fun acc op => match acc with
    | some l => runPQOp l op
    | none => none) (some [])

/-- The max-heap property over the occupied slots: every non-root slot's
parent has a `priority_score` at least the child's. -/
abbrev heapProp (l : List Entry) : Prop :=
  ∀ j < l.length, 0 < j → sc l j ≤ sc l ((j - 1) / 2)

/-! ## Persistence and navigation model (autocomplete.c)

File contents are byte lists; the byte 10 is the newline and 124 the
field separator of the `command|frequency|last_used` records. -/

/-- Whitespace test of `isspace` in the "C" locale. -/
def isWs (c : Nat) : Bool :=
  c = 32 || c = 9 || c = 10 || c = 11 || c = 12 || c = 13

/-- Digit accumulation loop of `atoi`/`atol`. -/
def digitsVal : List Nat → Int → Int
  | [], acc => acc
  | c :: rest, acc =>
      if 48 ≤ c ∧ c ≤ 57 then digitsVal rest (acc * 10 + ((c : Int) - 48))
      else acc

/-- Model of `atoi`/`atol` (no overflow: the values fit): skip leading
whitespace, read an optional sign, then accumulate leading digits;
0 when no digit follows. -/
def atoiB : List Nat → Int
  | [] => 0
  | c :: rest =>
      if isWs c then atoiB rest
      else if c = 45 then -(digitsVal rest 0)
      else if c = 43 then digitsVal rest 0
      else digitsVal (c :: rest) 0

/-- Decimal digits of a natural number, most significant first
(`printf %d` on a non-negative value).  The fuel equals the number, which
bounds the division chain. -/
def natDigitsAux : Nat → Nat → List Nat → List Nat
  | _, 0, acc => acc
  | 0, _ + 1, acc => acc
  | fuel + 1, n + 1, acc => natDigitsAux fuel ((n + 1) / 10) ((48 + (n + 1) % 10) :: acc)

/-- Decimal representation of a natural number. -/
def natDigits (n : Nat) : List Nat :=
  if n = 0 then [48] else natDigitsAux n n []

/-- Bytes `printf "%d"`/`"%ld"` emits for an integer. -/
def intBytes (z : Int) : List Nat :=
  if z < 0 then 45 :: natDigits (-z).toNat else natDigits z.toNat

/-- One `fgets(line, sizeof line)` call on a buffer of `n + 1` bytes:
consume at most `n` bytes of the stream, stopping after a newline byte;
returns the bytes read (newline included) and the remaining stream. -/
def fgetsChunk : Nat → List Nat → List Nat × List Nat
  | 0, bs => ([], bs)
  | _ + 1, [] => ([], [])
  | n + 1, c :: rest =>
      if c = 10 then ([c], rest)
      else
        let (l, r) := fgetsChunk n rest
        (c :: l, r)

/-- The successive lines the `load_trie_from_file` loop sees: repeated
`fgets(line, 4096)` reads of at most 4095 bytes, each truncated at its
first newline (`char *nl = strchr(line, 10); if (nl) *nl = 0`).  A
stored record longer than 4095 bytes does NOT arrive as one line: it is
split across several reads.  `fuel` bounds the number of reads; each
read on a non-empty stream consumes at least one byte. -/
def fgetsLinesAux : Nat → List Nat → List (List Nat)
  | 0, _ => []
  | _ + 1, [] => []
  | fuel + 1, c :: rest =>
      let (chunk, r2) := fgetsChunk 4095 (c :: rest)
      chunk.takeWhile (fun b => b ≠ 10) :: fgetsLinesAux fuel r2

/-- All lines of a byte stream as read through the 4096-byte `fgets`
buffer. -/
def fgetsLines (bs : List Nat) : List (List Nat) := fgetsLinesAux bs.length bs

/-- Chunks of a line between occurrences of a delimiter byte. -/
def chunksByAux (d : Nat) : List Nat → List Nat → List (List Nat)
  | [], cur => [cur.reverse]
  | c :: rest, cur =>
      if c = d then cur.reverse :: chunksByAux d rest []
      else chunksByAux d rest (c :: cur)

/-- Model of repeated `strtok(line, "|")`: the non-empty chunks between
pipe bytes, in order. -/
def tokensOf (line : List Nat) : List (List Nat) :=
  (chunksByAux 124 line []).filter (fun t => t ≠ [])

/-- Model of `trie_find_node`: plain walk to the command's node, `none`
unless the node exists and is terminal. -/
def findNode (t : Trie) (cmd : Cmd) : Option TrieNode :=
  match walkNode t.root cmd with
  | some n => if n.is_end_of_word then some n else none
  | none => none

/-- Model of `save_trie_to_file`: one `cmd|freq|last_used` line per
history entry, reading the values from the trie and falling back to
frequency 1 and the current time when the command's node is absent. -/
def saveBytes (now : Int) (t : Trie) (hist : List Cmd) : List Nat :=
  (hist.map (fun cmd =>
    let freq := match findNode t cmd with | some n => n.frequency | none => 1
    let ts := match findNode t cmd with | some n => n.last_used | none => now
    cmd ++ [124] ++ intBytes freq ++ [124] ++ intBytes ts ++ [10])).flatten

/-- Overwrite the (frequency, last_used) fields of the terminal node of
`cmd` — the two pointer writes after `trie_find_node` in
`load_trie_from_file`. -/
def setNodeVals (t : Trie) (cmd : Cmd) (freq ts : Int) : Trie :=
  ⟨updNode (fun m => .mk (TrieNode.children m) (TrieNode.is_end_of_word m)
      (TrieNode.full_command m) freq ts) t.root cmd,
    t.total_commands⟩

/-- Process one stored line in `load_trie_from_file`: skip blank lines,
tokenize, insert the first token as a command, and overwrite its node's
frequency/timestamp with the parsed numeric fields when the node was
found and both fields exist.  Returns the trie and the history list with
the command appended. -/
def loadLine (now : Int) (acc : Trie × List Cmd) (line : List Nat) :
    Trie × List Cmd :=
  if line = [] then acc
  else
    match tokensOf line with
    | [] => acc
    | cmd :: numToks =>
        let t1 := trieInsert now acc.1 cmd
        let t2 :=
          if (findNode t1 cmd).isSome then
            match numToks with
            | fs :: ts :: _ => setNodeVals t1 cmd (atoiB fs) (atoiB ts)
            | _ => t1
          else t1
        (t2, acc.2 ++ [cmd])

/-- Model of `load_trie_from_file`: clear the history list, then fold the
lines read through the 4096-byte `fgets` buffer into the given (NOT
cleared) trie.  A missing file is a no-op that keeps the old history. -/
def loadTrieFromFile (now : Int) (t : Trie) (hist : List Cmd)
    (file : Option (List Nat)) : Trie × List Cmd :=
  match file with
  | none => (t, hist)
  | some bs => (fgetsLines bs).foldl (loadLine now) (t, [])

/-- Model of `load_history_from_stdin`: insert every non-blank stdin line
into the trie and collect them in order; returns the new trie, the
history list and the count.  No line is compared against the current
buffer. -/
def loadHistoryFromStdin (now : Int) (t : Trie) (stdinLines : List (List Nat)) :
    Trie × List Cmd :=
  stdinLines.foldl (fun acc line =>
    if line = [] then acc
    else (trieInsert now acc.1 line, acc.2 ++ [line])) (t, [])

/-- Result of the `init` operation: in-memory trie and history, and the
resulting on-disk store. -/
structure InitResult where
  trie : Trie
  hist : List Cmd
  file : Option (List Nat)

/-- Model of `initialize_autocomplete_from_stdin`: create an empty trie,
read `cache_count` as `atoi` of the store's FIRST LINE (the store has no
count header — its first line is a `cmd|freq|ts` record), load stdin
(counting its non-blank lines), and either overwrite the store with the
stdin dataset (`stdin_count > cache_count`) or, when `cache_count > 0`,
reload the store on top of the already-populated trie. -/
def initFromStdin (now : Int) (stdinLines : List (List Nat))
    (file : Option (List Nat)) : InitResult :=
  let cacheCount : Int :=
    match file with
    | none => 0
    | some bs => atoiB (bs.takeWhile (fun c => c ≠ 10))
  let (t1, hist1) := loadHistoryFromStdin now trieCreate stdinLines
  let stdinCount : Int := hist1.length
  if cacheCount < stdinCount then
    ⟨t1, hist1, some (saveBytes now t1 hist1)⟩
  else if 0 < cacheCount then
    let (t2, hist2) := loadTrieFromFile now t1 hist1 file
    ⟨t2, hist2, file⟩
  else
    ⟨t1, hist1, file⟩

/-- Model of `filter_history_by_prefix`: with an empty prefix every
history entry is kept; otherwise the entries whose bytes start with the
prefix (the `strncmp(entry, prefix, strlen(prefix)) == 0` test), in
recording order. -/
def filterHistory (hist : List Cmd) (pfx : Cmd) : List Cmd :=
  if pfx = [] then hist
  else hist.filter (fun c => pfx.isPrefixOf c)

/-- Byte strings of the direction arguments. -/
def upBytes : List Nat := [117, 112]

/-- Byte string of the "down" direction argument. -/
def downBytes : List Nat := [100, 111, 119, 110]

/-- Model of `navigate_filtered_history`: rebuild the filtered view; on an
empty view return the original text with index 0; otherwise step the
index by direction, wrap (`>= count` to -1, `< -1` to `count-1`), and map
a non-sentinel index newest-first (`actual = count - 1 - idx`, with the
defensive clamp to 0). -/
def navigateFiltered (hist : List Cmd) (pfx : Cmd) (direction : List Nat)
    (startIdx : Int) : Cmd × Int :=
  let filtered := filterHistory hist pfx
  let count : Int := filtered.length
  if filtered.length = 0 then (pfx, 0)
  else
    let idx0 := if direction = upBytes then startIdx + 1
      else if direction = downBytes then startIdx - 1
      else startIdx
    let idx := if count ≤ idx0 then -1
      else if idx0 < -1 then count - 1
      else idx0
    if idx = -1 then (pfx, idx)
    else
      let actual := count - 1 - idx
      let actual := if actual < 0 ∨ count ≤ actual then 0 else actual
      (filtered.getD actual.toNat [], idx)

/-! ## Trie path lemmas -/

/-- Node-level frequency along the insert path. -/
def freqS (n : TrieNode) (cs : Cmd) : Int :=
  match walkSkip n cs with
  | some m => m.frequency
  | none => 0

/-- Node-level terminal test along the insert path. -/
def termS (n : TrieNode) (cs : Cmd) : Bool :=
  match walkSkip n cs with
  | some m => m.is_end_of_word
  | none => false

theorem childGet_childSet_self : ∀ (cs : ChildList) (c : Nat) (n : TrieNode),
    childGet (childSet cs c n) c = some n
  | .nil, c, n => by simp [childSet, childGet]
  | .cons k m rest, c, n => by
    simp only [childSet]
    split
    · simp [childGet]
    · split
      · simp [childGet]
      · simp only [childGet]
        rw [if_neg (by omega)]
        exact childGet_childSet_self rest c n

theorem childGet_childSet_ne : ∀ (cs : ChildList) (c c' : Nat) (n : TrieNode),
    c' ≠ c → childGet (childSet cs c n) c' = childGet cs c'
  | .nil, c, c', n, h => by simp [childSet, childGet, h]
  | .cons k m rest, c, c', n, h => by
    simp only [childSet]
    split
    · simp only [childGet]
      rw [if_neg h]
    · split
      · simp only [childGet]
        rw [if_neg h, if_neg (by omega)]
      · simp only [childGet]
        split
        · rfl
        · exact childGet_childSet_ne rest c c' n h

theorem walkSkip_newNode (cs : Cmd) : walkSkip newNode cs = some newNode ∨
    walkSkip newNode cs = none := by
  induction cs with
  | nil => left; rfl
  | cons c rest ih =>
    by_cases hc : 128 ≤ c
    · simpa [walkSkip, hc] using ih
    · right
      simp [walkSkip, hc, newNode, TrieNode.children, childGet]

theorem freqS_newNode (cs : Cmd) : freqS newNode cs = 0 := by
  rcases walkSkip_newNode cs with h | h <;>
    · simp only [freqS]
      rw [h]
      try rfl

theorem termS_newNode (cs : Cmd) : termS newNode cs = false := by
  rcases walkSkip_newNode cs with h | h <;>
    · simp only [termS]
      rw [h]
      try rfl

theorem freqS_cons (ch : ChildList) (e : Bool) (fc : Option Cmd) (fr lu : Int)
    (c : Nat) (rest : Cmd) (hc : ¬128 ≤ c) :
    freqS (.mk ch e fc fr lu) (c :: rest) =
      freqS ((childGet ch c).getD newNode) rest := by
  cases hg : childGet ch c with
  | none =>
    rw [show freqS (.mk ch e fc fr lu) (c :: rest) = 0 by
      simp [freqS, walkSkip, hc, TrieNode.children, hg]]
    exact (freqS_newNode rest).symm
  | some ch' => simp [freqS, walkSkip, hc, TrieNode.children, hg]

theorem termS_cons (ch : ChildList) (e : Bool) (fc : Option Cmd) (fr lu : Int)
    (c : Nat) (rest : Cmd) (hc : ¬128 ≤ c) :
    termS (.mk ch e fc fr lu) (c :: rest) =
      termS ((childGet ch c).getD newNode) rest := by
  cases hg : childGet ch c with
  | none =>
    rw [show termS (.mk ch e fc fr lu) (c :: rest) = false by
      simp [termS, walkSkip, hc, TrieNode.children, hg]]
    exact (termS_newNode rest).symm
  | some ch' => simp [termS, walkSkip, hc, TrieNode.children, hg]

/-- Core effect of `insertAux` at its own path: the final node exists, is
terminal, and its frequency grew by one; the "new command" flag is set
exactly when the final node was not terminal before. -/
theorem insertAux_walkSkip (now : Int) (full : Cmd) : ∀ (cs : Cmd) (n : TrieNode),
    ∃ m, walkSkip (insertAux now full n cs).1 cs = some m ∧
      m.frequency = freqS n cs + 1 ∧
      m.is_end_of_word = true ∧
      (insertAux now full n cs).2 = !(termS n cs)
  | [], .mk ch e fc fr lu => ⟨_, rfl, rfl, rfl, rfl⟩
  | c :: rest, .mk ch e fc fr lu => by
    by_cases hc : 128 ≤ c
    · have h := insertAux_walkSkip now full rest (.mk ch e fc fr lu)
      simpa [insertAux, walkSkip, hc, freqS, termS] using h
    · obtain ⟨m, hm, hf, he, hadd⟩ :=
        insertAux_walkSkip now full rest ((childGet ch c).getD newNode)
      refine ⟨m, ?_, ?_, he, ?_⟩
      · simpa [insertAux, walkSkip, hc, TrieNode.children,
          childGet_childSet_self] using hm
      · rw [hf, freqS_cons ch e fc fr lu c rest hc]
      · rw [show (insertAux now full (.mk ch e fc fr lu) (c :: rest)).2 =
            (insertAux now full ((childGet ch c).getD newNode) rest).2 by
              simp [insertAux, hc]]
        rw [hadd, termS_cons ch e fc fr lu c rest hc]

theorem freqAtS_eq (t : Trie) (cmd : Cmd) : freqAtS t cmd = freqS t.root cmd := rfl

theorem isTermAtS_eq (t : Trie) (cmd : Cmd) : isTermAtS t cmd = termS t.root cmd := rfl

/-- One `trie_insert` of a non-empty command: frequency at the command's
node grows by one, the node becomes terminal, and `total_commands` grows
by one exactly when the node was not terminal before. -/
theorem trieInsert_effect (now : Int) (t : Trie) (cmd : Cmd) (h : cmd ≠ []) :
    freqAtS (trieInsert now t cmd) cmd = freqAtS t cmd + 1 ∧
      isTermAtS (trieInsert now t cmd) cmd = true ∧
      (trieInsert now t cmd).total_commands =
        t.total_commands + (if isTermAtS t cmd then 0 else 1) := by
  obtain ⟨m, hm, hf, he, hadd⟩ := insertAux_walkSkip now cmd cmd t.root
  have hroot : (trieInsert now t cmd).root = (insertAux now cmd t.root cmd).1 := by
    simp [trieInsert, h]
  have htc : (trieInsert now t cmd).total_commands =
      t.total_commands + (if (insertAux now cmd t.root cmd).2 then 1 else 0) := by
    simp [trieInsert, h]
  refine ⟨?_, ?_, ?_⟩
  · rw [freqAtS_eq, hroot, freqAtS_eq]
    simp only [freqS]
    rw [hm]
    exact hf
  · rw [isTermAtS_eq, hroot]
    simp only [termS]
    rw [hm]
    exact he
  · rw [htc, hadd, isTermAtS_eq]
    cases termS t.root cmd <;> simp

/-- Insert the same command `k` times in a row. -/
def insertNTimes (now : Int) (t : Trie) (cmd : Cmd) : Nat → Trie
  | 0 => t
  | k + 1 => trieInsert now (insertNTimes now t cmd k) cmd

/-- C3: starting from an index whose node for `C` is not terminal (the
index does not contain `C`), inserting a non-empty `C` a total of `N >= 1`
times raises `C`'s node frequency by exactly `N` and `total_commands` by
exactly 1. -/
theorem claim3_insert_count (now : Int) (t : Trie) (cmd : Cmd) (N : Nat)
    (hne : cmd ≠ []) (hnc : isTermAtS t cmd = false) (hN : 1 ≤ N) :
    freqAtS (insertNTimes now t cmd N) cmd = freqAtS t cmd + N ∧
      (insertNTimes now t cmd N).total_commands = t.total_commands + 1 := by
  induction N with
  | zero => omega
  | succ k ih =>
    rcases Nat.eq_or_lt_of_le hN with h1 | h1
    · obtain ⟨hf, ht, hc⟩ := trieInsert_effect now t cmd hne
      have hk : k = 0 := by omega
      subst hk
      refine ⟨?_, ?_⟩
      · rw [show insertNTimes now t cmd 1 = trieInsert now t cmd from rfl, hf]
        push_cast
        ring
      · rw [show insertNTimes now t cmd 1 = trieInsert now t cmd from rfl, hc, hnc]
        simp
    · have hk : 1 ≤ k := by omega
      obtain ⟨ihf, ihc⟩ := ih hk
      obtain ⟨hf2, ht2, hc2⟩ :=
        trieInsert_effect now (insertNTimes now t cmd k) cmd hne
      have hterm : isTermAtS (insertNTimes now t cmd k) cmd = true := by
        rcases Nat.exists_eq_add_of_le hk with ⟨j, hj⟩
        rw [Nat.add_comm] at hj
        subst hj
        exact (trieInsert_effect now (insertNTimes now t cmd j) cmd hne).2.1
      refine ⟨?_, ?_⟩
      · rw [show insertNTimes now t cmd (k + 1) =
            trieInsert now (insertNTimes now t cmd k) cmd from rfl, hf2, ihf]
        push_cast
        ring
      · rw [show insertNTimes now t cmd (k + 1) =
            trieInsert now (insertNTimes now t cmd k) cmd from rfl, hc2, hterm, ihc]
        simp

/-- Witness for C3 at a concrete input: inserting the two-byte command
"ab" three times into the empty index. -/
theorem claim3_witness :
    freqAtS (insertNTimes 7 trieCreate [97, 98] 3) [97, 98] =
        freqAtS trieCreate [97, 98] + 3 ∧
      (insertNTimes 7 trieCreate [97, 98] 3).total_commands =
        trieCreate.total_commands + 1 :=
  claim3_insert_count 7 trieCreate [97, 98] 3 (by decide) (by decide) (by decide)

/-- After inserting `cs`, every prefix of `cs` made of in-range bytes is a
walkable path. -/
theorem insertAux_search (now : Int) (full : Cmd) : ∀ (cs : Cmd) (n : TrieNode)
    (k : Nat), (∀ b ∈ cs.take k, b < 128) →
    (walkNode (insertAux now full n cs).1 (cs.take k)).isSome
  | [], n, k, _ => by simp [walkNode]
  | c :: rest, .mk ch e fc fr lu, 0, _ => by simp [walkNode]
  | c :: rest, .mk ch e fc fr lu, k + 1, h => by
    have hc : c < 128 := h c (by simp)
    have hrest : ∀ b ∈ rest.take k, b < 128 := fun b hb => h b (by simp [hb])
    have ih := insertAux_search now full rest ((childGet ch c).getD newNode) k hrest
    simpa [insertAux, walkNode, hc, Nat.not_le.mpr hc, TrieNode.children,
      childGet_childSet_self, List.take] using ih

/-- C4 (amended): after inserting a command `C`, `prefix_exists` holds for
every literal prefix of `C` whose bytes are all in the supported range
(below 128).  (The counterexample shows the in-range condition is needed:
`trie_insert` skips out-of-range bytes but `trie_search` rejects them.) -/
theorem claim4_amended (now : Int) (t : Trie) (cmd : Cmd) (k : Nat)
    (h : ∀ b ∈ cmd.take k, b < 128) :
    trieSearch (trieInsert now t cmd) (cmd.take k) = true := by
  by_cases hne : cmd = []
  · subst hne
    simp [trieSearch, trieInsert, walkNode]
  · have := insertAux_search now cmd cmd t.root k h
    simp only [trieSearch, trieInsert, if_neg hne]
    simpa using this

/-- Witness for C4 (amended) at a concrete input: "git" inserted, prefix
"gi". -/
theorem claim4_witness :
    trieSearch (trieInsert 3 trieCreate [103, 105, 116]) ([103, 105, 116].take 2) =
      true :=
  claim4_amended 3 trieCreate [103, 105, 116] 2 (by decide)

/-- Counterexample to C4 as stated: the one-byte command `[200]` is
inserted and is a literal prefix of itself, yet `prefix_exists` is false,
because `trie_insert` skips bytes >= 128 while `trie_search` rejects
them. -/
theorem claim4_counterexample :
    trieSearch (trieInsert 0 trieCreate [200]) ([200].take 1) = false := by decide

/-- A mutating PrefixIndex operation (queries — `trie_search` and
`trie_get_best_completion` — take the trie by value in this model and
cannot mutate it, so only `trie_insert` and `trie_update_frequency`
appear in sequences). -/
inductive TOp where
  | insO (now : Int) (cmd : Cmd)
  | updO (now : Int) (cmd : Cmd)

/-- Run a sequence of mutating trie operations. -/
def runTrieOps (t : Trie) (ops : List TOp) : Trie :=
  ops.foldl (fun acc op => match op with
    | .insO now cmd => trieInsert now acc cmd
    | .updO now cmd => trieUpdateFrequency now acc cmd) t

/-- When the inserted command has at least one in-range byte, `insertAux`
leaves the starting node's terminal flag unchanged (the walk moves off
that node at the first in-range byte). -/
theorem insertAux_is_end (now : Int) (full : Cmd) : ∀ (cs : Cmd) (n : TrieNode),
    (∃ b ∈ cs, b < 128) →
    ((insertAux now full n cs).1).is_end_of_word = n.is_end_of_word
  | [], n, h => by simp at h
  | c :: rest, .mk ch e fc fr lu, h => by
    by_cases hc : 128 ≤ c
    · have hr : ∃ b ∈ rest, b < 128 := by
        obtain ⟨b, hb, hlt⟩ := h
        rcases List.mem_cons.mp hb with rfl | hb'
        · omega
        · exact ⟨b, hb', hlt⟩
      have ih := insertAux_is_end now full rest (.mk ch e fc fr lu) hr
      simpa [insertAux, hc] using ih
    · simp [insertAux, hc, TrieNode.is_end_of_word]

theorem updNode_is_end (f : TrieNode → TrieNode)
    (hf : ∀ m, (f m).is_end_of_word = m.is_end_of_word) :
    ∀ (n : TrieNode) (cs : Cmd), (updNode f n cs).is_end_of_word = n.is_end_of_word
  | n, [] => hf n
  | n, c :: rest => by
    by_cases hc : 128 ≤ c
    · simp [updNode, hc]
    · cases hg : childGet (TrieNode.children n) c with
      | none => simp [updNode, hc, hg]
      | some ch => simp [updNode, hc, hg, TrieNode.is_end_of_word]

/-- C5 (amended): the root never becomes terminal over any sequence of
inserts and usage updates from a fresh index, provided every inserted
command is empty (a no-op) or has at least one byte in the supported
range.  (The counterexample shows the proviso is needed: inserting a
command made only of bytes >= 128 marks the root terminal.) -/
theorem claim5_amended (ops : List TOp)
    (h : ∀ op ∈ ops, match op with
      | .insO _ cmd => cmd = [] ∨ ∃ b ∈ cmd, b < 128
      | .updO _ _ => True) :
    (runTrieOps trieCreate ops).root.is_end_of_word = false := by
  suffices hgen : ∀ (t : Trie), t.root.is_end_of_word = false →
      (runTrieOps t ops).root.is_end_of_word = false from
    hgen trieCreate (by rfl)
  induction ops with
  | nil => intro t ht; exact ht
  | cons op rest ih =>
    intro t ht
    have hrest : ∀ op ∈ rest, match op with
        | TOp.insO _ cmd => cmd = [] ∨ ∃ b ∈ cmd, b < 128
        | TOp.updO _ _ => True := fun o ho => h o (by simp [ho])
    cases op with
    | insO now cmd =>
      have hop : cmd = [] ∨ ∃ b ∈ cmd, b < 128 := h (TOp.insO now cmd) (by simp)
      have hstep : (trieInsert now t cmd).root.is_end_of_word = false := by
        rcases hop with rfl | hb
        · simpa [trieInsert] using ht
        · by_cases hne : cmd = []
          · simpa [trieInsert, hne] using ht
          · rw [show (trieInsert now t cmd).root =
                (insertAux now cmd t.root cmd).1 by simp [trieInsert, hne]]
            rw [insertAux_is_end now cmd cmd t.root hb]
            exact ht
      exact ih hrest (trieInsert now t cmd) hstep
    | updO now cmd =>
      have hstep : (trieUpdateFrequency now t cmd).root.is_end_of_word = false := by
        simp only [trieUpdateFrequency]
        cases hw : walkNode t.root cmd with
        | none => exact ht
        | some n =>
          by_cases he : n.is_end_of_word
          · simp only [he, if_pos]
            rw [updNode_is_end
              (fun m => TrieNode.mk (TrieNode.children m) (TrieNode.is_end_of_word m)
                (TrieNode.full_command m) (TrieNode.frequency m + 1) now)
              (fun m => rfl) t.root cmd]
            exact ht
          · simp only [he]
            simpa using ht
      exact ih hrest (trieUpdateFrequency now t cmd) hstep

/-- Witness for C5 (amended) at a concrete input: insert "ls" then update
its usage. -/
theorem claim5_witness :
    (runTrieOps trieCreate [.insO 1 [108, 115], .updO 2 [108, 115]]).root.is_end_of_word
      = false :=
  claim5_amended [.insO 1 [108, 115], .updO 2 [108, 115]]
    (by intro op hop; fin_cases hop <;> simp)

/-- Counterexample to C5 as stated: inserting the non-empty command
`[200]` (a single byte outside the supported range) into a fresh index
marks the ROOT node terminal — every byte is skipped, so the insert's
final node is the root itself. -/
theorem claim5_counterexample :
    (runTrieOps trieCreate [.insO 0 [200]]).root.is_end_of_word = true := by decide

theorem getD_newest_first (F : List Cmd) (i : Int) (h0 : 0 ≤ i)
    (hi : i < (F.length : Int)) :
    F.getD ((F.length : Int) - 1 - i).toNat [] = F.reverse.getD i.toNat [] := by
  have hlen : ((F.length : Int) - 1 - i).toNat = F.length - 1 - i.toNat := by omega
  have hit : i.toNat < F.length := by omega
  rw [List.getD_eq_getElem?_getD, List.getD_eq_getElem?_getD, hlen,
    List.getElem?_reverse hit]

/-- C8: with a non-empty filtered sequence and a starting index between
the sentinel -1 and `filtered_count - 1`, the "up" direction increments
the index and wraps past the last selection to the sentinel; "down"
decrements and wraps past the sentinel to the last selection; every
non-sentinel result index `i` selects the matching commands newest-first
(`i = 0` is the most recently recorded one, i.e. index `i` of the
reversed filtered sequence), and the sentinel returns the original
text. -/
theorem claim8_navigation (hist : List Cmd) (pfx : Cmd) (start : Int)
    (hne : 0 < (filterHistory hist pfx).length)
    (hlo : -1 ≤ start)
    (hhi : start ≤ ((filterHistory hist pfx).length : Int) - 1) :
    (navigateFiltered hist pfx upBytes start =
      (if start = ((filterHistory hist pfx).length : Int) - 1 then (pfx, -1)
       else ((filterHistory hist pfx).reverse.getD (start + 1).toNat [],
         start + 1))) ∧
    (navigateFiltered hist pfx downBytes start =
      (if start = -1 then
        ((filterHistory hist pfx).reverse.getD
            (((filterHistory hist pfx).length : Int) - 1).toNat [],
          ((filterHistory hist pfx).length : Int) - 1)
       else if start = 0 then (pfx, -1)
       else ((filterHistory hist pfx).reverse.getD (start - 1).toNat [],
         start - 1))) := by
  set F := filterHistory hist pfx with hF
  set L : Int := (F.length : Int) with hL
  constructor
  · simp only [navigateFiltered, ← hF, ← hL, eq_self_iff_true, if_true,
      (by decide : (upBytes = downBytes) = False), if_false]
    rw [if_neg (by omega : ¬F.length = 0)]
    by_cases hend : start = L - 1
    · rw [if_pos (by omega : L ≤ start + 1)]
      rw [if_pos rfl, if_pos hend]
    · rw [if_neg (by omega : ¬L ≤ start + 1), if_neg (by omega : ¬start + 1 < -1),
        if_neg (by omega : ¬start + 1 = -1), if_neg hend,
        if_neg (by omega : ¬(L - 1 - (start + 1) < 0 ∨ L ≤ L - 1 - (start + 1)))]
      rw [getD_newest_first F (start + 1) (by omega) (by omega)]
  · simp only [navigateFiltered, ← hF, ← hL, eq_self_iff_true, if_true,
      (by decide : (downBytes = upBytes) = False), if_false]
    rw [if_neg (by omega : ¬F.length = 0)]
    by_cases hsent : start = -1
    · rw [if_neg (by omega : ¬L ≤ start - 1), if_pos (by omega : start - 1 < -1),
        if_neg (by omega : ¬L - 1 = -1), if_pos hsent,
        if_neg (by omega : ¬(L - 1 - (L - 1) < 0 ∨ L ≤ L - 1 - (L - 1)))]
      rw [getD_newest_first F (L - 1) (by omega) (by omega)]
    · by_cases hzero : start = 0
      · rw [if_neg (by omega : ¬L ≤ start - 1), if_neg (by omega : ¬start - 1 < -1),
          if_pos (by omega : start - 1 = -1), if_neg hsent, if_pos hzero]
        rw [show start - 1 = -1 by omega]
      · rw [if_neg (by omega : ¬L ≤ start - 1), if_neg (by omega : ¬start - 1 < -1),
          if_neg (by omega : ¬start - 1 = -1), if_neg hsent, if_neg hzero,
          if_neg (by omega : ¬(L - 1 - (start - 1) < 0 ∨ L ≤ L - 1 - (start - 1)))]
        rw [getD_newest_first F (start - 1) (by omega) (by omega)]

/-- Witness for C8 at a concrete input: history ["ls", "la"], prefix "l",
start index 0. -/
theorem claim8_witness :
    (navigateFiltered [[108, 115], [108, 97]] [108] upBytes 0 =
      (if (0 : Int) = ((filterHistory [[108, 115], [108, 97]] [108]).length : Int) - 1
       then ([108], -1)
       else ((filterHistory [[108, 115], [108, 97]] [108]).reverse.getD
           ((0 : Int) + 1).toNat [], (0 : Int) + 1))) ∧
    (navigateFiltered [[108, 115], [108, 97]] [108] downBytes 0 =
      (if (0 : Int) = -1 then
        ((filterHistory [[108, 115], [108, 97]] [108]).reverse.getD
            (((filterHistory [[108, 115], [108, 97]] [108]).length : Int) - 1).toNat [],
          ((filterHistory [[108, 115], [108, 97]] [108]).length : Int) - 1)
       else if (0 : Int) = 0 then ([108], -1)
       else ((filterHistory [[108, 115], [108, 97]] [108]).reverse.getD
           ((0 : Int) - 1).toNat [], (0 : Int) - 1))) :=
  claim8_navigation [[108, 115], [108, 97]] [108] 0 (by decide) (by decide) (by decide)

/-- C9, the behaviour at the failing input: with history ["ls"] and
prefix "x" the filtered sequence is empty, and the navigation call
returns the original text with index 0 — NOT the sentinel -1 the
specification requires (`*new_index = 0` in the `filtered_count == 0`
branch, contradicting the code's own convention that -1 represents the
original buffer). -/
theorem claim9_failing_input :
    navigateFiltered [[108, 115]] [120] upBytes 0 = ([120], 0) := by decide

/-- C2, the behaviour at the failing input.  The on-disk store holds the
two records "ls|5|0" and "cd|3|0" (entry count 2) and stdin carries the
single line "pwd", equal to the current buffer.  The claim requires the
incoming count (0 after excluding the buffer line, or at most 1) to be
compared against the store's entry count 2, so the store should be loaded
and the incoming data discarded.  The code instead (a) never excludes the
current-buffer line (the function has no such parameter), and (b)
computes `cache_count` as `atoi` of the store's FIRST LINE — `atoi("ls|5|0")
= 0`, because the live store format has no count header — so it resolves
`1 > 0` and OVERWRITES the two-record store with the single record
"pwd|1|42". -/
theorem claim2_failing_input :
    (initFromStdin 42 [[112, 119, 100]]
        (some [108, 115, 124, 53, 124, 48, 10, 99, 100, 124, 51, 124, 48, 10])).file =
      some [112, 119, 100, 124, 49, 124, 52, 50, 10] := by decide

/-- A full (capacity 100) bounded ranked set whose minimum-score entry
sits in the LAST occupied slot (slot 99): scores decrease with the slot
index, so the max-heap property holds. -/
def fullPQ : List Entry :=
  (List.range 100).map (fun i => ⟨[i], 0, 0, 200 - (i : Int)⟩)

set_option maxRecDepth 8000 in
/-- C10, the behaviour at the failing input: `fullPQ` is a legitimate
full heap whose minimum is the last occupied slot (slot 99).  Inserting a
new command evicts slot 99, NULLs it, decrements the size to 99, and then
calls `pq_heapify_up(pq, 99)` — which dereferences the NULLed slot 99, an
unoccupied slot at the decremented size.  In the model the out-of-range
read makes the insert return `none` (the crash). -/
theorem claim10_failing_input :
    fullPQ.length = pqCapacity ∧ heapProp fullPQ ∧ minIdx fullPQ = 99 ∧
      findCmdIdx [100] fullPQ 0 = none ∧
      pqInsert 0 fullPQ [100] 1 0 = none := by
  refine ⟨by decide, by decide, by decide, by decide, by decide⟩

/-! ## Round-trip lemmas: decimal printing and parsing -/

theorem natDigitsAux_irrel : ∀ (f1 f2 n : Nat) (acc : List Nat), n ≤ f1 → n ≤ f2 →
    natDigitsAux f1 n acc = natDigitsAux f2 n acc
  | f1, f2, 0, acc, _, _ => by cases f1 <;> cases f2 <;> rfl
  | 0, f2, n + 1, acc, h1, _ => by omega
  | f1, 0, n + 1, acc, _, h2 => by omega
  | f1 + 1, f2 + 1, n + 1, acc, h1, h2 => by
    simp only [natDigitsAux]
    exact natDigitsAux_irrel f1 f2 ((n + 1) / 10) _ (by omega) (by omega)

theorem natDigitsAux_append : ∀ (fuel n : Nat) (acc : List Nat), n ≤ fuel →
    natDigitsAux fuel n acc = natDigitsAux fuel n [] ++ acc
  | fuel, 0, acc, _ => by cases fuel <;> rfl
  | 0, n + 1, acc, h => by omega
  | fuel + 1, n + 1, acc, h => by
    simp only [natDigitsAux]
    rw [natDigitsAux_append fuel ((n + 1) / 10) ((48 + (n + 1) % 10) :: acc) (by omega),
      natDigitsAux_append fuel ((n + 1) / 10) [48 + (n + 1) % 10] (by omega)]
    simp

theorem natDigitsAux_digits : ∀ (fuel n : Nat), n ≤ fuel →
    ∀ b ∈ natDigitsAux fuel n [], 48 ≤ b ∧ b ≤ 57
  | fuel, 0, _, b, hb => by cases fuel <;> simp [natDigitsAux] at hb
  | 0, n + 1, h, b, hb => by omega
  | fuel + 1, n + 1, h, b, hb => by
    rw [show natDigitsAux (fuel + 1) (n + 1) [] =
        natDigitsAux fuel ((n + 1) / 10) [48 + (n + 1) % 10] from rfl,
      natDigitsAux_append fuel ((n + 1) / 10) _ (by omega)] at hb
    rcases List.mem_append.mp hb with hmem | hmem
    · exact natDigitsAux_digits fuel ((n + 1) / 10) (by omega) b hmem
    · simp at hmem
      omega

theorem digitsVal_append (ds rest : List Nat) (a : Int)
    (h : ∀ b ∈ ds, 48 ≤ b ∧ b ≤ 57) :
    digitsVal (ds ++ rest) a = digitsVal rest (digitsVal ds a) := by
  induction ds generalizing a with
  | nil => rfl
  | cons c ds ih =>
    have hc := h c (by simp)
    have hrest : ∀ b ∈ ds, 48 ≤ b ∧ b ≤ 57 := fun b hb => h b (by simp [hb])
    simp only [List.cons_append, digitsVal, if_pos hc]
    exact ih _ hrest

theorem digitsVal_natDigitsAux : ∀ (fuel n : Nat), n ≤ fuel → ∀ (a : Int),
    digitsVal (natDigitsAux fuel n []) a =
      a * 10 ^ (natDigitsAux fuel n []).length + n
  | fuel, 0, _, a => by cases fuel <;> simp [natDigitsAux, digitsVal]
  | 0, n + 1, h, a => by omega
  | fuel + 1, n + 1, h, a => by
    have hstep : natDigitsAux (fuel + 1) (n + 1) [] =
        natDigitsAux fuel ((n + 1) / 10) [] ++ [48 + (n + 1) % 10] := by
      rw [show natDigitsAux (fuel + 1) (n + 1) [] =
          natDigitsAux fuel ((n + 1) / 10) [48 + (n + 1) % 10] from rfl,
        natDigitsAux_append fuel ((n + 1) / 10) _ (by omega)]
    rw [hstep, digitsVal_append _ _ _ (natDigitsAux_digits fuel ((n + 1) / 10) (by omega)),
      digitsVal_natDigitsAux fuel ((n + 1) / 10) (by omega) a]
    have hd : (48 : Nat) ≤ 48 + (n + 1) % 10 ∧ 48 + (n + 1) % 10 ≤ 57 := by omega
    simp only [digitsVal, if_pos hd, List.length_append, List.length_singleton]
    have h1 : ((48 + (n + 1) % 10 : Nat) : Int) - 48 = ((n + 1) % 10 : Nat) := by
      push_cast
      ring
    have hmodN : n + 1 = (n + 1) / 10 * 10 + (n + 1) % 10 := by omega
    have hmod : ((n + 1 : Nat) : Int) =
        ((n + 1) / 10 : Nat) * 10 + ((n + 1) % 10 : Nat) := by
      exact_mod_cast hmodN
    rw [h1, pow_succ]
    linear_combination -hmod

theorem natDigits_digits (n : Nat) : ∀ b ∈ natDigits n, 48 ≤ b ∧ b ≤ 57 := by
  intro b hb
  by_cases h0 : n = 0
  · subst h0
    simp [natDigits] at hb
    omega
  · simp only [natDigits, if_neg h0] at hb
    exact natDigitsAux_digits n n (le_refl n) b hb

theorem digitsVal_natDigits (n : Nat) : digitsVal (natDigits n) 0 = n := by
  by_cases h0 : n = 0
  · subst h0
    simp [natDigits, digitsVal]
  · simp only [natDigits, if_neg h0]
    rw [digitsVal_natDigitsAux n n (le_refl n) 0]
    simp

theorem natDigits_ne_nil (n : Nat) : natDigits n ≠ [] := by
  by_cases h0 : n = 0
  · subst h0
    simp [natDigits]
  · simp only [natDigits, if_neg h0]
    intro hcon
    have h2 := digitsVal_natDigitsAux n n (le_refl n) 0
    rw [hcon] at h2
    simp [digitsVal] at h2
    omega

/-- Parsing inverts printing for any integer. -/
theorem atoiB_intBytes (z : Int) : atoiB (intBytes z) = z := by
  by_cases hz : z < 0
  · simp only [intBytes, if_pos hz]
    cases hd : natDigits (-z).toNat with
    | nil => exact absurd hd (natDigits_ne_nil _)
    | cons c ds =>
      have hv := digitsVal_natDigits (-z).toNat
      rw [hd] at hv
      rw [show atoiB (45 :: c :: ds) = -(digitsVal (c :: ds) 0) from rfl, hv]
      omega
  · simp only [intBytes, if_neg hz]
    cases hd : natDigits z.toNat with
    | nil => exact absurd hd (natDigits_ne_nil _)
    | cons c ds =>
      have hdig : 48 ≤ c ∧ c ≤ 57 := natDigits_digits z.toNat c (by rw [hd]; simp)
      have hv := digitsVal_natDigits z.toNat
      rw [hd] at hv
      have hws : isWs c = false := by
        simp only [isWs, Bool.or_eq_false_iff, decide_eq_false_iff_not]
        omega
      rw [show atoiB (c :: ds) =
          if isWs c then atoiB ds
          else if c = 45 then -(digitsVal ds 0)
          else if c = 43 then digitsVal ds 0
          else digitsVal (c :: ds) 0 from rfl]
      rw [hws]
      rw [if_neg (by simp), if_neg (by omega : ¬c = 45), if_neg (by omega : ¬c = 43), hv]
      omega

theorem intBytes_bytes (z : Int) : ∀ b ∈ intBytes z, b = 45 ∨ (48 ≤ b ∧ b ≤ 57) := by
  intro b hb
  by_cases hz : z < 0
  · simp only [intBytes, if_pos hz] at hb
    rcases List.mem_cons.mp hb with rfl | hb'
    · left; rfl
    · right; exact natDigits_digits _ b hb'
  · simp only [intBytes, if_neg hz] at hb
    right; exact natDigits_digits _ b hb

theorem intBytes_ne_nil (z : Int) : intBytes z ≠ [] := by
  by_cases hz : z < 0 <;> simp [intBytes, hz, natDigits_ne_nil]

/-! ## Round-trip lemmas: line splitting and tokenization -/

theorem fgetsChunk_record : ∀ (n : Nat) (r rest : List Nat), 10 ∉ r → r.length < n →
    fgetsChunk n (r ++ 10 :: rest) = (r ++ [10], rest)
  | n, [], rest, _, hlen => by
    obtain ⟨m, rfl⟩ : ∃ m, n = m + 1 := ⟨n - 1, by omega⟩
    show fgetsChunk (m + 1) (10 :: rest) = ([10], rest)
    simp [fgetsChunk]
  | n, c :: r, rest, hno, hlen => by
    obtain ⟨m, rfl⟩ : ∃ m, n = m + 1 := ⟨n - 1, by omega⟩
    have hc : c ≠ 10 := fun h => hno (by simp [h])
    have hrec := fgetsChunk_record m r rest (fun h => hno (by simp [h]))
      (by simp only [List.length_cons] at hlen; omega)
    show (if c = 10 then (([c], r ++ 10 :: rest) : List Nat × List Nat) else
        (c :: (fgetsChunk m (r ++ 10 :: rest)).1, (fgetsChunk m (r ++ 10 :: rest)).2)) =
      (c :: r ++ [10], rest)
    rw [if_neg hc, hrec]
    rfl

theorem takeWhile_record (r : List Nat) (h : 10 ∉ r) :
    (r ++ [10]).takeWhile (fun b => b ≠ 10) = r := by
  induction r with
  | nil => simp
  | cons c r ih =>
    have hc : c ≠ 10 := fun hcc => h (by simp [hcc])
    have hr : 10 ∉ r := fun hm => h (by simp [hm])
    have hpc : (fun b => decide (b ≠ 10)) c = true := by simp [hc]
    rw [List.cons_append, List.takeWhile_cons, if_pos hpc, ih hr]

theorem fgetsLinesAux_nil (fuel : Nat) : fgetsLinesAux fuel [] = [] := by
  cases fuel <;> rfl

theorem fgetsLinesAux_step (fuel : Nat) (bs chunk rest : List Nat) (hne : bs ≠ [])
    (h : fgetsChunk 4095 bs = (chunk, rest)) :
    fgetsLinesAux (fuel + 1) bs =
      chunk.takeWhile (fun b => b ≠ 10) :: fgetsLinesAux fuel rest := by
  cases bs with
  | nil => exact absurd rfl hne
  | cons c cs =>
    show (fgetsChunk 4095 (c :: cs)).1.takeWhile (fun b => b ≠ 10) ::
        fgetsLinesAux fuel (fgetsChunk 4095 (c :: cs)).2 = _
    rw [h]

/-- Reading newline-terminated records through the 4096-byte `fgets`
buffer recovers exactly the records, provided each record (newline
excluded) fits in a single read: at most 4094 bytes, so the record plus
its newline is at most 4095.  Without the bound a long record is split
across reads. -/
theorem fgetsLinesAux_records : ∀ (recs : List (List Nat)) (fuel : Nat),
    (∀ r ∈ recs, 10 ∉ r ∧ r.length ≤ 4094) →
    ((recs.map (fun x => x ++ [10])).flatten).length ≤ fuel →
    fgetsLinesAux fuel ((recs.map (fun x => x ++ [10])).flatten) = recs
  | [], fuel, _, _ => by
    simp only [List.map_nil, List.flatten_nil]
    exact fgetsLinesAux_nil fuel
  | r :: recs, fuel, hwf, hfuel => by
    have hr := hwf r (by simp)
    have hflat : ((r :: recs).map (fun x => x ++ [10])).flatten =
        r ++ 10 :: ((recs.map (fun x => x ++ [10])).flatten) := by
      simp only [List.map_cons, List.flatten_cons, List.append_assoc,
        List.singleton_append]
    have hlenflat : (((r :: recs).map (fun x => x ++ [10])).flatten).length =
        r.length + 1 + ((recs.map (fun x => x ++ [10])).flatten).length := by
      rw [hflat]
      simp [List.length_append]
      omega
    obtain ⟨f, rfl⟩ : ∃ f, fuel = f + 1 := ⟨fuel - 1, by omega⟩
    rw [hflat]
    rw [fgetsLinesAux_step f (r ++ 10 :: ((recs.map (fun x => x ++ [10])).flatten))
      (r ++ [10]) ((recs.map (fun x => x ++ [10])).flatten)
      (by cases r <;> simp)
      (fgetsChunk_record 4095 r ((recs.map (fun x => x ++ [10])).flatten) hr.1
        (by omega))]
    rw [takeWhile_record r hr.1]
    rw [fgetsLinesAux_records recs f (fun x hx => hwf x (by simp [hx])) (by omega)]

theorem fgetsLines_records (recs : List (List Nat))
    (h : ∀ r ∈ recs, 10 ∉ r ∧ r.length ≤ 4094) :
    fgetsLines ((recs.map (fun x => x ++ [10])).flatten) = recs :=
  fgetsLinesAux_records recs _ h (le_refl _)

theorem chunksByAux_chunk (a : List Nat) (h : 124 ∉ a) :
    ∀ (rest cur : List Nat),
    chunksByAux 124 ((a ++ [124]) ++ rest) cur =
      (cur.reverse ++ a) :: chunksByAux 124 rest [] := by
  induction a with
  | nil => intro rest cur; simp [chunksByAux]
  | cons c a ih =>
    intro rest cur
    have hc : c ≠ 124 := fun hcon => h (by simp [hcon])
    have ha : 124 ∉ a := fun hcon => h (by simp [hcon])
    simp only [List.cons_append, chunksByAux, if_neg hc]
    show chunksByAux 124 ((a ++ [124]) ++ rest) (c :: cur) = _
    rw [ih ha rest (c :: cur)]
    simp

theorem chunksByAux_last (a : List Nat) (h : 124 ∉ a) : ∀ (cur : List Nat),
    chunksByAux 124 a cur = [cur.reverse ++ a] := by
  induction a with
  | nil => intro cur; simp [chunksByAux]
  | cons c a ih =>
    intro cur
    have hc : c ≠ 124 := fun hcon => h (by simp [hcon])
    have ha : 124 ∉ a := fun hcon => h (by simp [hcon])
    simp only [chunksByAux, if_neg hc]
    rw [ih ha (c :: cur)]
    simp

/-- Tokenizing a well-formed `cmd|d1|d2` record yields the three fields. -/
theorem tokensOf_record (cmd d1 d2 : List Nat) (hc : cmd ≠ []) (h1 : 124 ∉ cmd)
    (hd1n : d1 ≠ []) (hd1p : 124 ∉ d1) (hd2n : d2 ≠ []) (hd2p : 124 ∉ d2) :
    tokensOf (cmd ++ [124] ++ d1 ++ [124] ++ d2) = [cmd, d1, d2] := by
  have hassoc : cmd ++ [124] ++ d1 ++ [124] ++ d2 =
      (cmd ++ [124]) ++ (d1 ++ [124] ++ d2) := by simp
  have hassoc2 : d1 ++ [124] ++ d2 = (d1 ++ [124]) ++ d2 := by simp
  simp only [tokensOf, hassoc]
  rw [chunksByAux_chunk cmd h1 _ []]
  rw [show chunksByAux 124 (d1 ++ [124] ++ d2) [] =
      chunksByAux 124 ((d1 ++ [124]) ++ d2) [] by rw [← hassoc2]]
  rw [chunksByAux_chunk d1 hd1p _ [], chunksByAux_last d2 hd2p []]
  simp [hc, hd1n, hd2n]

/-! ## Round-trip lemmas: node values under insert and overwrite -/

/-- Terminal-node values (frequency, last_used) at a plain-walk path. -/
def tvals (n : TrieNode) (cs : Cmd) : Option (Int × Int) :=
  match walkNode n cs with
  | some m => if m.is_end_of_word then some (m.frequency, m.last_used) else none
  | none => none

/-- Trie-level terminal values, as read through `trie_find_node`. -/
def findVals (t : Trie) (cmd : Cmd) : Option (Int × Int) :=
  (findNode t cmd).map (fun n => (n.frequency, n.last_used))

theorem findVals_eq_tvals (t : Trie) (cmd : Cmd) :
    findVals t cmd = tvals t.root cmd := by
  simp only [findVals, findNode, tvals]
  cases walkNode t.root cmd with
  | none => rfl
  | some m =>
    by_cases he : m.is_end_of_word <;> simp [he]

theorem tvals_cons (n : TrieNode) (c : Nat) (rest : Cmd) (hc : ¬128 ≤ c) :
    tvals n (c :: rest) = match childGet (TrieNode.children n) c with
      | some ch => tvals ch rest
      | none => none := by
  simp only [tvals, walkNode, if_neg hc]
  cases childGet (TrieNode.children n) c <;> rfl

theorem tvals_cons_hi (n : TrieNode) (c : Nat) (rest : Cmd) (hc : 128 ≤ c) :
    tvals n (c :: rest) = none := by
  simp [tvals, walkNode, hc]

theorem tvals_newNode (cs : Cmd) : tvals newNode cs = none := by
  cases cs with
  | nil => rfl
  | cons c rest =>
    by_cases hc : 128 ≤ c
    · exact tvals_cons_hi newNode c rest hc
    · rw [tvals_cons newNode c rest hc]
      rfl

/-- The walk to the end of an overwritten path sees the rewritten node. -/
theorem walkNode_updNode (g : TrieNode → TrieNode) : ∀ (cs : Cmd) (n : TrieNode),
    walkNode (updNode g n cs) cs = (walkNode n cs).map g
  | [], n => rfl
  | c :: rest, .mk ch e fc fr lu => by
    by_cases hc : 128 ≤ c
    · simp [updNode, walkNode, hc]
    · cases hg : childGet ch c with
      | none => simp [updNode, walkNode, hc, TrieNode.children, hg]
      | some ch0 =>
        simp only [updNode, walkNode, if_neg hc, TrieNode.children, hg,
          childGet_childSet_self]
        exact walkNode_updNode g rest ch0

/-- Overwriting values along one path leaves the terminal values of every
other path unchanged (`g` must preserve the child array and the terminal
flag; it may change frequency, last_used and the stored command). -/
theorem tvals_updNode_ne (g : TrieNode → TrieNode)
    (hgc : ∀ m, TrieNode.children (g m) = TrieNode.children m)
    (hge : ∀ m, TrieNode.is_end_of_word (g m) = TrieNode.is_end_of_word m) :
    ∀ (cs cs' : Cmd) (n : TrieNode), cs' ≠ cs →
    tvals (updNode g n cs) cs' = tvals n cs'
  | [], cs', n, hne => by
    cases cs' with
    | nil => exact absurd rfl hne
    | cons c' rest' =>
      by_cases hc' : 128 ≤ c'
      · rw [tvals_cons_hi _ c' rest' hc', tvals_cons_hi n c' rest' hc']
      · rw [tvals_cons _ c' rest' hc', tvals_cons n c' rest' hc', updNode, hgc n]
  | c :: rest, cs', .mk ch e fc fr lu, hne => by
    by_cases hc : 128 ≤ c
    · simp [updNode, hc]
    · cases hg : childGet ch c with
      | none => simp [updNode, hc, TrieNode.children, hg]
      | some ch0 =>
        cases cs' with
        | nil =>
          simp only [updNode, if_neg hc, TrieNode.children, hg]
          rfl
        | cons c' rest' =>
          by_cases hc' : 128 ≤ c'
          · rw [tvals_cons_hi _ c' rest' hc', tvals_cons_hi _ c' rest' hc']
          · rw [tvals_cons _ c' rest' hc', tvals_cons _ c' rest' hc']
            by_cases hcc : c' = c
            · subst hcc
              have hrne : rest' ≠ rest := fun hcon => hne (by rw [hcon])
              simp only [updNode, if_neg hc, TrieNode.children, hg,
                childGet_childSet_self]
              exact tvals_updNode_ne g hgc hge rest rest' ch0 hrne
            · simp only [updNode, if_neg hc, TrieNode.children, hg,
                childGet_childSet_ne _ _ _ _ hcc]

/-- Inserting one command leaves the terminal values of every other path
unchanged (the inserted command must be in-range so that its insert path
is the literal byte path). -/
theorem tvals_insertAux_ne (now : Int) (full : Cmd) :
    ∀ (cs cs' : Cmd) (n : TrieNode), (∀ b ∈ cs, b < 128) → cs' ≠ cs →
    tvals (insertAux now full n cs).1 cs' = tvals n cs'
  | [], cs', .mk ch e fc fr lu, _, hne => by
    cases cs' with
    | nil => exact absurd rfl hne
    | cons c' rest' =>
      by_cases hc' : 128 ≤ c'
      · rw [tvals_cons_hi _ c' rest' hc', tvals_cons_hi _ c' rest' hc']
      · rw [tvals_cons _ c' rest' hc', tvals_cons _ c' rest' hc']
        rfl
  | c :: rest, cs', .mk ch e fc fr lu, hlt, hne => by
    have hc : ¬128 ≤ c := by
      have := hlt c (by simp)
      omega
    have hrest : ∀ b ∈ rest, b < 128 := fun b hb => hlt b (by simp [hb])
    cases cs' with
    | nil =>
      simp only [insertAux, if_neg hc]
      rfl
    | cons c' rest' =>
      by_cases hc' : 128 ≤ c'
      · rw [tvals_cons_hi _ c' rest' hc', tvals_cons_hi _ c' rest' hc']
      · rw [tvals_cons _ c' rest' hc', tvals_cons _ c' rest' hc']
        by_cases hcc : c' = c
        · subst hcc
          have hrne : rest' ≠ rest := fun hcon => hne (by rw [hcon])
          simp only [insertAux, if_neg hc, TrieNode.children,
            childGet_childSet_self]
          cases hg : childGet ch c' with
          | none =>
            rw [tvals_insertAux_ne now full rest rest' _ hrest hrne]
            simp [tvals_newNode]
          | some ch0 =>
            rw [tvals_insertAux_ne now full rest rest' _ hrest hrne]
            rfl
        · simp only [insertAux, if_neg hc, TrieNode.children,
            childGet_childSet_ne _ _ _ _ hcc]

theorem walkNode_coincide : ∀ (cs : Cmd) (n : TrieNode), (∀ b ∈ cs, b < 128) →
    walkNode n cs = walkSkip n cs
  | [], n, _ => rfl
  | c :: rest, n, h => by
    have hc : ¬128 ≤ c := by
      have := h c (by simp)
      omega
    have hrest : ∀ b ∈ rest, b < 128 := fun b hb => h b (by simp [hb])
    simp only [walkNode, walkSkip, if_neg hc]
    cases childGet (TrieNode.children n) c with
    | none => rfl
    | some ch => exact walkNode_coincide rest ch hrest

theorem findNode_eq_some_iff (t : Trie) (n : TrieNode) (cmd : Cmd) :
    findNode t cmd = some n ↔
      walkNode t.root cmd = some n ∧ n.is_end_of_word = true := by
  simp only [findNode]
  cases hw : walkNode t.root cmd with
  | none => simp
  | some m =>
    by_cases he : m.is_end_of_word
    · simp only [if_pos he, Option.some_inj]
      constructor
      · rintro rfl
        exact ⟨rfl, he⟩
      · rintro ⟨h1, _⟩
        exact h1
    · simp only [if_neg he]
      constructor
      · rintro hcon
        exact absurd hcon (by simp)
      · rintro ⟨h1, h2⟩
        rw [Option.some_inj] at h1
        rw [← h1] at h2
        exact absurd h2 he

/-- After inserting a non-empty, in-range command, `trie_find_node` finds
its (terminal) node. -/
theorem findNode_insert_self (now : Int) (t : Trie) (cmd : Cmd)
    (hne : cmd ≠ []) (hlt : ∀ b ∈ cmd, b < 128) :
    ∃ m, findNode (trieInsert now t cmd) cmd = some m := by
  obtain ⟨m, hm, _, he, _⟩ := insertAux_walkSkip now cmd cmd t.root
  refine ⟨m, (findNode_eq_some_iff _ m cmd).mpr ⟨?_, he⟩⟩
  rw [show (trieInsert now t cmd).root = (insertAux now cmd t.root cmd).1 by
    simp [trieInsert, hne]]
  rw [walkNode_coincide cmd _ hlt]
  exact hm

theorem findVals_insert_ne (now : Int) (t : Trie) (cmd cmd' : Cmd)
    (hlt : ∀ b ∈ cmd, b < 128) (hne' : cmd' ≠ cmd) :
    findVals (trieInsert now t cmd) cmd' = findVals t cmd' := by
  by_cases hne : cmd = []
  · subst hne
    simp [trieInsert]
  · rw [findVals_eq_tvals, findVals_eq_tvals,
      show (trieInsert now t cmd).root = (insertAux now cmd t.root cmd).1 by
        simp [trieInsert, hne]]
    exact tvals_insertAux_ne now cmd cmd cmd' t.root hlt hne'

theorem findVals_setVals_self (t : Trie) (cmd : Cmd) (f ts : Int) (n : TrieNode)
    (hfind : findNode t cmd = some n) :
    findVals (setNodeVals t cmd f ts) cmd = some (f, ts) := by
  obtain ⟨hw, he⟩ := (findNode_eq_some_iff t n cmd).mp hfind
  have hwalk : walkNode (setNodeVals t cmd f ts).root cmd =
      some (TrieNode.mk (TrieNode.children n) (TrieNode.is_end_of_word n)
        (TrieNode.full_command n) f ts) := by
    rw [show (setNodeVals t cmd f ts).root =
        updNode (fun m => TrieNode.mk (TrieNode.children m) (TrieNode.is_end_of_word m)
          (TrieNode.full_command m) f ts) t.root cmd from rfl,
      walkNode_updNode _ cmd t.root, hw]
    rfl
  have hfind2 : findNode (setNodeVals t cmd f ts) cmd =
      some (TrieNode.mk (TrieNode.children n) (TrieNode.is_end_of_word n)
        (TrieNode.full_command n) f ts) := by
    refine (findNode_eq_some_iff _ _ cmd).mpr ⟨hwalk, ?_⟩
    simpa [TrieNode.is_end_of_word] using he
  simp only [findVals, hfind2, Option.map_some]
  rfl

theorem findVals_setVals_ne (t : Trie) (cmd cmd' : Cmd) (f ts : Int)
    (hne' : cmd' ≠ cmd) :
    findVals (setNodeVals t cmd f ts) cmd' = findVals t cmd' := by
  rw [findVals_eq_tvals, findVals_eq_tvals]
  exact tvals_updNode_ne
    (fun m => TrieNode.mk (TrieNode.children m) (TrieNode.is_end_of_word m)
      (TrieNode.full_command m) f ts)
    (fun m => rfl) (fun m => rfl) cmd cmd' t.root hne'

theorem intBytes_no_pipe (z : Int) : 124 ∉ intBytes z := by
  intro h
  rcases intBytes_bytes z 124 h with h45 | hdig <;> omega

theorem intBytes_no_newline (z : Int) : 10 ∉ intBytes z := by
  intro h
  rcases intBytes_bytes z 10 h with h45 | hdig <;> omega

/-- One well-formed record line processed by `load_trie_from_file`:
insert the command, then overwrite its node with the parsed values. -/
theorem loadLine_record (nowL : Int) (acc : Trie × List Cmd) (c : Cmd)
    (f g : Int) (hcne : c ≠ []) (hwf : ∀ b ∈ c, b < 128 ∧ b ≠ 124 ∧ b ≠ 10) :
    loadLine nowL acc (c ++ [124] ++ intBytes f ++ [124] ++ intBytes g) =
      (setNodeVals (trieInsert nowL acc.1 c) c f g, acc.2 ++ [c]) := by
  have hlne : c ++ [124] ++ intBytes f ++ [124] ++ intBytes g ≠ [] := by
    cases c with
    | nil => exact absurd rfl hcne
    | cons x xs => simp
  have hnopipe : 124 ∉ c := fun hmem => by
    have := (hwf 124 hmem).2.1
    omega
  have htok : tokensOf (c ++ [124] ++ intBytes f ++ [124] ++ intBytes g) =
      [c, intBytes f, intBytes g] :=
    tokensOf_record c (intBytes f) (intBytes g) hcne hnopipe
      (intBytes_ne_nil f) (intBytes_no_pipe f) (intBytes_ne_nil g) (intBytes_no_pipe g)
  obtain ⟨m, hm⟩ := findNode_insert_self nowL acc.1 c hcne
    (fun b hb => (hwf b hb).1)
  simp only [loadLine, if_neg hlne, htok, hm, Option.isSome_some, if_pos,
    atoiB_intBytes]

/-- Folding well-formed record lines into a trie: every listed command
ends with its recorded values, and every other command's values are
untouched. -/
theorem load_fold (nowL : Int) (F G : Cmd → Int) :
    ∀ (cmds : List Cmd) (acc : Trie × List Cmd),
    (∀ c ∈ cmds, c ≠ [] ∧ ∀ b ∈ c, b < 128 ∧ b ≠ 124 ∧ b ≠ 10) →
    (∀ c ∈ cmds,
      findVals ((cmds.map fun c2 =>
          c2 ++ [124] ++ intBytes (F c2) ++ [124] ++ intBytes (G c2)).foldl
        (loadLine nowL) acc).1 c = some (F c, G c)) ∧
    (∀ c', (∀ x ∈ cmds, c' ≠ x) →
      findVals ((cmds.map fun c2 =>
          c2 ++ [124] ++ intBytes (F c2) ++ [124] ++ intBytes (G c2)).foldl
        (loadLine nowL) acc).1 c' = findVals acc.1 c')
  | [], acc, _ => by
    constructor
    · intro c hc
      simp at hc
    · intro c' _
      rfl
  | c :: cmds, acc, hwf => by
    have hc := hwf c (by simp)
    have hwfrest : ∀ x ∈ cmds, x ≠ [] ∧ ∀ b ∈ x, b < 128 ∧ b ≠ 124 ∧ b ≠ 10 :=
      fun x hx => hwf x (by simp [hx])
    have hstep := loadLine_record nowL acc c (F c) (G c) hc.1 hc.2
    have hfold : ((c :: cmds).map fun c2 =>
        c2 ++ [124] ++ intBytes (F c2) ++ [124] ++ intBytes (G c2)).foldl
          (loadLine nowL) acc =
        (cmds.map fun c2 =>
          c2 ++ [124] ++ intBytes (F c2) ++ [124] ++ intBytes (G c2)).foldl
          (loadLine nowL) (setNodeVals (trieInsert nowL acc.1 c) c (F c) (G c),
            acc.2 ++ [c]) := by
      simp only [List.map_cons, List.foldl_cons, hstep]
    obtain ⟨ih1, ih2⟩ := load_fold nowL F G cmds
      (setNodeVals (trieInsert nowL acc.1 c) c (F c) (G c), acc.2 ++ [c]) hwfrest
    constructor
    · intro x hx
      rw [hfold]
      rcases List.mem_cons.mp hx with rfl | hx'
      · by_cases hxin : x ∈ cmds
        · exact ih1 x hxin
        · rw [ih2 x (fun y hy => fun hcon => hxin (hcon ▸ hy))]
          obtain ⟨m, hm⟩ := findNode_insert_self nowL acc.1 x hc.1
            (fun b hb => (hc.2 b hb).1)
          exact findVals_setVals_self _ x (F x) (G x) m hm
      · exact ih1 x hx'
    · intro c' hne
      rw [hfold, ih2 c' (fun y hy => hne y (by simp [hy]))]
      have hnec : c' ≠ c := hne c (by simp)
      rw [show (setNodeVals (trieInsert nowL acc.1 c) c (F c) (G c),
          acc.2 ++ [c]).1 = setNodeVals (trieInsert nowL acc.1 c) c (F c) (G c)
          from rfl,
        findVals_setVals_ne _ c c' (F c) (G c) hnec,
        findVals_insert_ne nowL acc.1 c c' (fun b hb => (hc.2 b hb).1) hnec]

/-- C7 (amended): for commands whose bytes are in the supported range and
contain neither the field separator byte 124 nor the newline byte 10, and
whose saved `cmd|freq|ts` record fits in the loader's 4096-byte `fgets`
line buffer (command plus the two printed numbers at most 4092 bytes, so
the record with its two separators and newline is at most 4095), saving
the store and reloading it into a fresh index leaves every saved command
terminal with exactly the saved frequency and timestamp.  (The
counterexample shows the separator condition is needed: a command
containing the pipe byte is split by the loader's tokenizer and its
record is not restored.  The length condition is needed too: a longer
record is split across `fgets` reads and misparsed.) -/
theorem claim7_roundtrip (nowS nowL : Int) (t : Trie) (hist : List Cmd)
    (hw : ∀ cmd ∈ hist, cmd ≠ [] ∧ (∀ b ∈ cmd, b < 128 ∧ b ≠ 124 ∧ b ≠ 10) ∧
      (findNode t cmd).isSome)
    (hlen : ∀ cmd ∈ hist, ∀ p ∈ findVals t cmd,
      cmd.length + (intBytes p.1).length + (intBytes p.2).length ≤ 4092) :
    ∀ cmd ∈ hist,
      findVals (loadTrieFromFile nowL trieCreate []
        (some (saveBytes nowS t hist))).1 cmd = findVals t cmd := by
  intro cmd hcmd
  set F : Cmd → Int := fun c => match findNode t c with
    | some n => n.frequency
    | none => 1 with hF
  set G : Cmd → Int := fun c => match findNode t c with
    | some n => n.last_used
    | none => nowS with hG
  have hsave : saveBytes nowS t hist =
      ((hist.map fun c => c ++ [124] ++ intBytes (F c) ++ [124] ++ intBytes (G c)).map
        (fun r => r ++ [10])).flatten := by
    rw [List.map_map]
    rfl
  have hnonl : ∀ r ∈ hist.map fun c =>
      c ++ [124] ++ intBytes (F c) ++ [124] ++ intBytes (G c), 10 ∉ r := by
    intro r hr
    obtain ⟨c, hcin, rfl⟩ := List.mem_map.mp hr
    intro hmem
    simp only [List.mem_append] at hmem
    rcases hmem with ((((h1 | h2) | h3) | h4) | h5)
    · exact absurd rfl ((hw c hcin).2.1 10 h1).2.2
    · simp at h2
    · exact intBytes_no_newline (F c) h3
    · simp at h4
    · exact intBytes_no_newline (G c) h5
  have hrlen : ∀ r ∈ hist.map fun c =>
      c ++ [124] ++ intBytes (F c) ++ [124] ++ intBytes (G c), r.length ≤ 4094 := by
    intro r hr
    obtain ⟨c, hcin, rfl⟩ := List.mem_map.mp hr
    obtain ⟨n, hn⟩ := Option.isSome_iff_exists.mp (hw c hcin).2.2
    have hv : findVals t c = some (n.frequency, n.last_used) := by
      simp [findVals, hn]
    have hb := hlen c hcin (n.frequency, n.last_used) (by simp [hv])
    have hFc : F c = n.frequency := by rw [hF]; simp [hn]
    have hGc : G c = n.last_used := by rw [hG]; simp [hn]
    simp only [List.length_append, List.length_cons, List.length_nil, hFc, hGc]
    simp only at hb
    omega
  have hlines : fgetsLines (saveBytes nowS t hist) =
      hist.map fun c => c ++ [124] ++ intBytes (F c) ++ [124] ++ intBytes (G c) := by
    rw [hsave]
    exact fgetsLines_records _ (fun r hr => ⟨hnonl r hr, hrlen r hr⟩)
  have hload : loadTrieFromFile nowL trieCreate [] (some (saveBytes nowS t hist)) =
      (hist.map fun c =>
        c ++ [124] ++ intBytes (F c) ++ [124] ++ intBytes (G c)).foldl
        (loadLine nowL) (trieCreate, []) := by
    simp only [loadTrieFromFile, hlines]
  obtain ⟨h1, _⟩ := load_fold nowL F G hist (trieCreate, [])
    (fun c hcin => ⟨(hw c hcin).1, (hw c hcin).2.1⟩)
  rw [hload, h1 cmd hcmd]
  obtain ⟨n, hn⟩ := Option.isSome_iff_exists.mp (hw cmd hcmd).2.2
  rw [show findVals t cmd = some (n.frequency, n.last_used) by
    simp [findVals, hn]]
  rw [show F cmd = n.frequency by rw [hF]; simp [hn]]
  rw [show G cmd = n.last_used by rw [hG]; simp [hn]]

/-- Witness for C7 (amended) at a concrete input: the singleton history
["g"] with the command inserted at time 3, saved at time 5 and reloaded
at time 11. -/
theorem claim7_witness :
    findVals (loadTrieFromFile 11 trieCreate []
        (some (saveBytes 5 (trieInsert 3 trieCreate [103]) [[103]]))).1 [103] =
      findVals (trieInsert 3 trieCreate [103]) [103] :=
  claim7_roundtrip 5 11 (trieInsert 3 trieCreate [103]) [[103]]
    (by decide) (by decide) [103] (by decide)

/-- Counterexample to C7 as stated: the command "a|b" (bytes 97,124,98)
is held in the index with frequency 2 and timestamp 5, but after a save
and reload it is no longer terminal at all — its record "a|b|2|5" is
tokenized as command "a" with frequency atoi("b") = 0 — so the round trip
does not preserve the triple. -/
theorem claim7_counterexample :
    findVals (setNodeVals (trieInsert 7 trieCreate [97, 124, 98])
        [97, 124, 98] 2 5) [97, 124, 98] = some (2, 5) ∧
    findVals (loadTrieFromFile 9 trieCreate []
        (some (saveBytes 9
          (setNodeVals (trieInsert 7 trieCreate [97, 124, 98]) [97, 124, 98] 2 5)
          [[97, 124, 98]]))).1 [97, 124, 98] = none := by
  constructor <;> decide

/-! ## Heap invariant lemmas (priority_queue.c) -/

theorem sc_set (l : List Entry) (i : Nat) (e : Entry) (j : Nat) :
    sc (l.set i e) j =
      if i = j ∧ i < l.length then e.priority_score else sc l j := by
  simp only [sc, List.get?_eq_getElem?, List.getElem?_set]
  by_cases hij : i = j
  · subst hij
    by_cases hlen : i < l.length
    · simp [hlen]
    · have hnone : l[i]? = none := List.getElem?_eq_none (by omega)
      simp [hlen, hnone]
  · have hcon : ¬(i = j ∧ i < l.length) := fun hc => hij hc.1
    simp [hij, hcon]

theorem sc_append_left (l : List Entry) (e : Entry) (j : Nat) (h : j < l.length) :
    sc (l ++ [e]) j = sc l j := by
  simp only [sc, List.get?_eq_getElem?, List.getElem?_append_left h]

theorem sc_append_last (l : List Entry) (e : Entry) :
    sc (l ++ [e]) l.length = e.priority_score := by
  simp only [sc, List.get?_eq_getElem?, List.getElem?_concat_length]

theorem sc_dropLast (l : List Entry) (j : Nat) (h : j < l.length - 1) :
    sc l.dropLast j = sc l j := by
  simp only [sc, List.get?_eq_getElem?, List.getElem?_dropLast, if_pos h]

theorem sc_of_get (l : List Entry) (j : Nat) (e : Entry) (h : l.get? j = some e) :
    sc l j = e.priority_score := by
  simp only [sc, h]

theorem get?_isSome_of_lt (l : List Entry) (j : Nat) (h : j < l.length) :
    ∃ e, l.get? j = some e := by
  rw [List.get?_eq_getElem?]
  exact Option.isSome_iff_exists.mp (by simp [h])

/-- An out-of-range `pq_heapify_up` at a positive index dereferences a
NULL slot regardless of fuel. -/
theorem heapifyUpF_oob (now : Int) (fuel : Nat) (l : List Entry) (i : Nat)
    (h0 : 0 < i) (hlen : l.length ≤ i) : heapifyUpF now fuel l i = none := by
  cases fuel with
  | zero =>
    cases i with
    | zero => omega
    | succ i' => rfl
  | succ f =>
    cases i with
    | zero => omega
    | succ i' =>
      have : l.get? (i' + 1) = none := by
        rw [List.get?_eq_getElem?]
        exact List.getElem?_eq_none hlen
      simp only [heapifyUpF, this]

/-- Main correctness of `pq_heapify_up`: from an almost-heap whose only
possible violations are at the edges incident to `i` from below — the
value at `i` may exceed its parent — and whose children of `i` are
bounded by `i`'s grandparent, sifting up restores the full heap
property. -/
theorem heapifyUpF_heap (now : Int) : ∀ (fuel : Nat) (l : List Entry) (i : Nat),
    i ≤ fuel → i < l.length →
    (∀ j, j < l.length → 0 < j → j ≠ i → sc l j ≤ sc l ((j - 1) / 2)) →
    (∀ j, j < l.length → 0 < j → (j - 1) / 2 = i → 0 < i →
      sc l j ≤ sc l ((i - 1) / 2)) →
    ∃ l2, heapifyUpF now fuel l i = some l2 ∧ l2.length = l.length ∧ heapProp l2
  | fuel, l, 0, _, _, hA, _ => by
    have hup : heapifyUpF now fuel l 0 = some l := by cases fuel <;> rfl
    refine ⟨l, hup, rfl, ?_⟩
    intro j hj h0
    exact hA j hj h0 (by omega)
  | 0, l, i + 1, hfuel, _, _, _ => by omega
  | fuel + 1, l, i + 1, hfuel, hlen, hA, hB => by
    obtain ⟨ei, hei⟩ := get?_isSome_of_lt l (i + 1) hlen
    obtain ⟨ep, hep⟩ := get?_isSome_of_lt l ((i + 1 - 1) / 2) (by omega)
    by_cases hcmp : ep.priority_score < ei.priority_score
    · -- swap with the parent and recurse
      set p := (i + 1 - 1) / 2 with hp
      have hpi : p < i + 1 := by omega
      have hplen : p < l.length := by omega
      set l2 := (l.set (i + 1) ep).set p ei with hl2
      have hlen2 : l2.length = l.length := by simp [hl2]
      have hsc2 : ∀ j, sc l2 j =
          if j = p then ei.priority_score
          else if j = i + 1 then ep.priority_score
          else sc l j := by
        intro j
        rw [hl2, sc_set _ _ _ _, sc_set _ _ _ _]
        by_cases hjp : j = p
        · subst hjp
          rw [if_pos ⟨rfl, by simpa using hplen⟩, if_pos rfl]
        · have h1 : ¬(p = j ∧ p < (l.set (i + 1) ep).length) :=
            fun hc => hjp hc.1.symm
          rw [if_neg h1, if_neg hjp]
          by_cases hji : j = i + 1
          · subst hji
            rw [if_pos ⟨rfl, hlen⟩, if_pos rfl]
          · have h2 : ¬(i + 1 = j ∧ i + 1 < l.length) :=
              fun hc => hji hc.1.symm
            rw [if_neg h2, if_neg hji]
      have hscp : sc l p = ep.priority_score := sc_of_get l p ep hep
      have hsci : sc l (i + 1) = ei.priority_score := sc_of_get l (i + 1) ei hei
      have hA2 : ∀ j, j < l2.length → 0 < j → j ≠ p →
          sc l2 j ≤ sc l2 ((j - 1) / 2) := by
        intro j hj h0 hjp
        rw [hlen2] at hj
        rw [hsc2 j, hsc2 ((j - 1) / 2)]
        by_cases hji : j = i + 1
        · subst hji
          rw [if_neg hjp, if_pos rfl, if_pos hp.symm]
          omega
        · rw [if_neg hjp, if_neg hji]
          by_cases hpjp : (j - 1) / 2 = p
          · rw [if_pos hpjp]
            have h1 : sc l j ≤ sc l ((j - 1) / 2) := hA j hj h0 hji
            rw [hpjp, hscp] at h1
            omega
          · rw [if_neg hpjp]
            by_cases hpji : (j - 1) / 2 = i + 1
            · rw [if_pos hpji]
              have h1 := hB j hj h0 hpji (by omega)
              rw [hscp] at h1
              exact h1
            · rw [if_neg hpji]
              exact hA j hj h0 hji
      have hB2 : ∀ j, j < l2.length → 0 < j → (j - 1) / 2 = p → 0 < p →
          sc l2 j ≤ sc l2 ((p - 1) / 2) := by
        intro j hj h0 hpar hp0
        rw [hlen2] at hj
        have hgpne1 : (p - 1) / 2 ≠ p := by omega
        have hgpne2 : (p - 1) / 2 ≠ i + 1 := by omega
        rw [hsc2 j, hsc2 ((p - 1) / 2), if_neg hgpne1, if_neg hgpne2]
        by_cases hji : j = i + 1
        · subst hji
          rw [if_neg (show (i + 1 : Nat) ≠ p by omega), if_pos rfl]
          have h1 : sc l p ≤ sc l ((p - 1) / 2) := hA p hplen hp0 (by omega)
          rw [hscp] at h1
          exact h1
        · by_cases hjp : j = p
          · omega
          · rw [if_neg hjp, if_neg hji]
            have h1 : sc l j ≤ sc l ((j - 1) / 2) := hA j hj h0 hji
            have h2 : sc l p ≤ sc l ((p - 1) / 2) := hA p hplen hp0 (by omega)
            rw [hpar, hscp] at h1
            rw [hscp] at h2
            omega
      have hrec := heapifyUpF_heap now fuel l2 p (by omega) (by omega) hA2 hB2
      obtain ⟨l3, hl3, hlen3, hheap3⟩ := hrec
      refine ⟨l3, ?_, by omega, hheap3⟩
      simp only [heapifyUpF, hei, hep, if_pos hcmp]
      exact hl3
    · -- no swap: the array is already a heap
      refine ⟨l, ?_, rfl, ?_⟩
      · simp only [heapifyUpF, hei, hep, if_neg hcmp]
      · intro j hj h0
        by_cases hji : j = i + 1
        · subst hji
          rw [sc_of_get l _ ei hei, sc_of_get l _ ep hep]
          omega
        · exact hA j hj h0 hji

/-- Invariant transfer for one `pq_heapify_down` swap: swapping the
too-small root-of-subtree `i` with its larger child `b` moves the
possible violations down to `b`. -/
theorem down_swap_inv (l : List Entry) (i b : Nat) (ei eb : Entry)
    (hI : l.get? i = some ei) (hBg : l.get? b = some eb)
    (hib : i < b) (hblen : b < l.length) (hpb : (b - 1) / 2 = i)
    (hA : ∀ j, j < l.length → 0 < j → (j - 1) / 2 ≠ i → sc l j ≤ sc l ((j - 1) / 2))
    (hBc : 0 < i → ∀ j, j < l.length → 0 < j → (j - 1) / 2 = i →
      sc l j ≤ sc l ((i - 1) / 2))
    (hcmp : ei.priority_score < eb.priority_score)
    (hsib : ∀ s, s < l.length → 0 < s → (s - 1) / 2 = i → s ≠ b →
      sc l s ≤ eb.priority_score) :
    (∀ j, j < ((l.set i eb).set b ei).length → 0 < j → (j - 1) / 2 ≠ b →
      sc ((l.set i eb).set b ei) j ≤ sc ((l.set i eb).set b ei) ((j - 1) / 2)) ∧
    (0 < b → ∀ j, j < ((l.set i eb).set b ei).length → 0 < j → (j - 1) / 2 = b →
      sc ((l.set i eb).set b ei) j ≤ sc ((l.set i eb).set b ei) ((b - 1) / 2)) := by
  have hilen : i < l.length := by omega
  have hsci : sc l i = ei.priority_score := sc_of_get l i ei hI
  have hscb : sc l b = eb.priority_score := sc_of_get l b eb hBg
  have hsc2 : ∀ j, sc ((l.set i eb).set b ei) j =
      if j = b then ei.priority_score
      else if j = i then eb.priority_score
      else sc l j := by
    intro j
    rw [sc_set _ _ _ _, sc_set _ _ _ _]
    by_cases hjb : j = b
    · subst hjb
      rw [if_pos ⟨rfl, by simpa using hblen⟩, if_pos rfl]
    · have h1 : ¬(b = j ∧ b < (l.set i eb).length) := fun hc => hjb hc.1.symm
      rw [if_neg h1, if_neg hjb]
      by_cases hji : j = i
      · subst hji
        rw [if_pos ⟨rfl, hilen⟩, if_pos rfl]
      · have h2 : ¬(i = j ∧ i < l.length) := fun hc => hji hc.1.symm
        rw [if_neg h2, if_neg hji]
  have hlen2 : ((l.set i eb).set b ei).length = l.length := by simp
  constructor
  · intro j hj h0 hpjb
    rw [hlen2] at hj
    rw [hsc2 j, hsc2 ((j - 1) / 2)]
    by_cases hjb : j = b
    · rw [if_pos hjb]
      have hpj : (j - 1) / 2 = i := by omega
      rw [hpj, if_neg (by omega : ¬i = b), if_pos rfl]
      omega
    · rw [if_neg hjb]
      by_cases hji : j = i
      · have h0i : 0 < i := by omega
        rw [if_pos hji]
        have hpj : (j - 1) / 2 = (i - 1) / 2 := by rw [hji]
        rw [hpj, if_neg (by omega : ¬(i - 1) / 2 = b),
          if_neg (by omega : ¬(i - 1) / 2 = i)]
        have h1 := hBc h0i b hblen (by omega) hpb
        rw [hscb] at h1
        exact h1
      · rw [if_neg hji]
        by_cases hpji : (j - 1) / 2 = i
        · rw [if_neg hpjb, if_pos hpji]
          exact hsib j hj h0 hpji hjb
        · rw [if_neg hpjb, if_neg hpji]
          exact hA j hj h0 hpji
  · intro hb0 j hj h0 hpjb
    rw [hlen2] at hj
    have hjgt : b < j := by omega
    rw [hsc2 j, hsc2 ((b - 1) / 2), if_neg (by omega : ¬j = b),
      if_neg (by omega : ¬j = i), hpb, if_neg (by omega : ¬i = b), if_pos rfl]
    have h1 := hA j hj h0 (by omega : (j - 1) / 2 ≠ i)
    rw [hpjb, hscb] at h1
    exact h1

/-- Main correctness of `pq_heapify_down`: from an array that is a heap
except possibly at the edges from `i` down to its children — with the
children of `i` bounded by `i`'s parent when `i` is not the root —
sifting down restores the full heap property. -/
theorem heapifyDownF_heap : ∀ (fuel : Nat) (l : List Entry) (i : Nat),
    l.length - i ≤ fuel →
    (∀ j, j < l.length → 0 < j → (j - 1) / 2 ≠ i → sc l j ≤ sc l ((j - 1) / 2)) →
    (0 < i → ∀ j, j < l.length → 0 < j → (j - 1) / 2 = i →
      sc l j ≤ sc l ((i - 1) / 2)) →
    (heapifyDownF fuel l i).length = l.length ∧ heapProp (heapifyDownF fuel l i)
  | 0, l, i, hfuel, hA, _ => by
    refine ⟨rfl, ?_⟩
    show heapProp l
    intro j hj h0
    exact hA j hj h0 (by omega)
  | fuel + 1, l, i, hfuel, hA, hBc => by
    by_cases hilen : i < l.length
    · obtain ⟨ei, hI⟩ := get?_isSome_of_lt l i hilen
      by_cases hllen : 2 * i + 1 < l.length
      · obtain ⟨el, hL⟩ := get?_isSome_of_lt l (2 * i + 1) hllen
        by_cases hc1 : ei.priority_score < el.priority_score
        · -- big1 = left child
          by_cases hrlen : 2 * i + 2 < l.length
          · obtain ⟨er, hR⟩ := get?_isSome_of_lt l (2 * i + 2) hrlen
            by_cases hc2 : el.priority_score < er.priority_score
            · -- big2 = right child: swap i with the right child
              have hred : heapifyDownF (fuel + 1) l i =
                  heapifyDownF fuel ((l.set i er).set (2 * i + 2) ei) (2 * i + 2) := by
                simp only [heapifyDownF, hI, hL, hR, if_pos hc1, if_pos hc2,
                  if_neg (by omega : ¬2 * i + 2 = i)]
              obtain ⟨hA2, hB2⟩ := down_swap_inv l i (2 * i + 2) ei er hI hR
                (by omega) hrlen (by omega) hA hBc (by omega)
                (fun s hs h0s hps hsne => by
                  have hsl : s = 2 * i + 1 := by omega
                  subst hsl
                  rw [sc_of_get l _ el hL]
                  omega)
              have hrec := heapifyDownF_heap fuel ((l.set i er).set (2 * i + 2) ei)
                (2 * i + 2) (by simp; omega) hA2 (fun h0b => hB2 h0b)
              rw [hred]
              refine ⟨by rw [hrec.1]; simp, hrec.2⟩
            · -- big2 = left child: swap i with the left child
              have hred : heapifyDownF (fuel + 1) l i =
                  heapifyDownF fuel ((l.set i el).set (2 * i + 1) ei) (2 * i + 1) := by
                simp only [heapifyDownF, hI, hL, hR, if_pos hc1, if_neg hc2,
                  if_neg (by omega : ¬2 * i + 1 = i)]
              obtain ⟨hA2, hB2⟩ := down_swap_inv l i (2 * i + 1) ei el hI hL
                (by omega) hllen (by omega) hA hBc (by omega)
                (fun s hs h0s hps hsne => by
                  have hsl : s = 2 * i + 2 := by omega
                  subst hsl
                  rw [sc_of_get l _ er hR]
                  omega)
              have hrec := heapifyDownF_heap fuel ((l.set i el).set (2 * i + 1) ei)
                (2 * i + 1) (by simp; omega) hA2 (fun h0b => hB2 h0b)
              rw [hred]
              refine ⟨by rw [hrec.1]; simp, hrec.2⟩
          · -- no right child: swap i with the left child
            have hR : l.get? (2 * i + 2) = none := by
              rw [List.get?_eq_getElem?]
              exact List.getElem?_eq_none (by omega)
            have hred : heapifyDownF (fuel + 1) l i =
                heapifyDownF fuel ((l.set i el).set (2 * i + 1) ei) (2 * i + 1) := by
              simp only [heapifyDownF, hI, hL, hR, if_pos hc1,
                if_neg (by omega : ¬2 * i + 1 = i)]
            obtain ⟨hA2, hB2⟩ := down_swap_inv l i (2 * i + 1) ei el hI hL
              (by omega) hllen (by omega) hA hBc (by omega)
              (fun s hs h0s hps hsne => by omega)
            have hrec := heapifyDownF_heap fuel ((l.set i el).set (2 * i + 1) ei)
              (2 * i + 1) (by simp; omega) hA2 (fun h0b => hB2 h0b)
            rw [hred]
            refine ⟨by rw [hrec.1]; simp, hrec.2⟩
        · -- left child does not beat i
          by_cases hrlen : 2 * i + 2 < l.length
          · obtain ⟨er, hR⟩ := get?_isSome_of_lt l (2 * i + 2) hrlen
            by_cases hc2 : ei.priority_score < er.priority_score
            · -- big2 = right child: swap i with the right child
              have hred : heapifyDownF (fuel + 1) l i =
                  heapifyDownF fuel ((l.set i er).set (2 * i + 2) ei) (2 * i + 2) := by
                simp only [heapifyDownF, hI, hL, hR, if_neg hc1, if_pos hc2,
                  if_neg (by omega : ¬2 * i + 2 = i)]
              obtain ⟨hA2, hB2⟩ := down_swap_inv l i (2 * i + 2) ei er hI hR
                (by omega) hrlen (by omega) hA hBc (by omega)
                (fun s hs h0s hps hsne => by
                  have hsl : s = 2 * i + 1 := by omega
                  subst hsl
                  rw [sc_of_get l _ el hL]
                  omega)
              have hrec := heapifyDownF_heap fuel ((l.set i er).set (2 * i + 2) ei)
                (2 * i + 2) (by simp; omega) hA2 (fun h0b => hB2 h0b)
              rw [hred]
              refine ⟨by rw [hrec.1]; simp, hrec.2⟩
            · -- both children bounded: already a heap
              have hred : heapifyDownF (fuel + 1) l i = l := by
                simp only [heapifyDownF, hI, hL, hR, if_neg hc1, if_neg hc2]
                rfl
              rw [hred]
              refine ⟨rfl, ?_⟩
              intro j hj h0
              by_cases hpji : (j - 1) / 2 = i
              · have : j = 2 * i + 1 ∨ j = 2 * i + 2 := by omega
                rcases this with rfl | rfl
                · rw [sc_of_get l _ el hL, hpji, sc_of_get l _ ei hI]
                  omega
                · rw [sc_of_get l _ er hR, hpji, sc_of_get l _ ei hI]
                  omega
              · exact hA j hj h0 hpji
          · -- only the left child exists and it is bounded: already a heap
            have hR : l.get? (2 * i + 2) = none := by
              rw [List.get?_eq_getElem?]
              exact List.getElem?_eq_none (by omega)
            have hred : heapifyDownF (fuel + 1) l i = l := by
              simp only [heapifyDownF, hI, hL, hR, if_neg hc1]
              rfl
            rw [hred]
            refine ⟨rfl, ?_⟩
            intro j hj h0
            by_cases hpji : (j - 1) / 2 = i
            · have : j = 2 * i + 1 := by omega
              subst this
              rw [sc_of_get l _ el hL, hpji, sc_of_get l _ ei hI]
              omega
            · exact hA j hj h0 hpji
      · -- no children below i in range: already a heap
        have hL : l.get? (2 * i + 1) = none := by
          rw [List.get?_eq_getElem?]
          exact List.getElem?_eq_none (by omega)
        have hR : l.get? (2 * i + 2) = none := by
          rw [List.get?_eq_getElem?]
          exact List.getElem?_eq_none (by omega)
        have hred : heapifyDownF (fuel + 1) l i = l := by
          simp only [heapifyDownF, hI, hL, hR]
          rfl
        rw [hred]
        refine ⟨rfl, ?_⟩
        intro j hj h0
        by_cases hpji : (j - 1) / 2 = i
        · omega
        · exact hA j hj h0 hpji
    · -- i out of range: nothing is read and nothing changes
      have hI : l.get? i = none := by
        rw [List.get?_eq_getElem?]
        exact List.getElem?_eq_none (by omega)
      have hred : heapifyDownF (fuel + 1) l i = l := by
        simp only [heapifyDownF, hI]
        cases l.get? (2 * i + 1) <;> cases l.get? (2 * i + 2) <;> simp
      rw [hred]
      refine ⟨rfl, ?_⟩
      intro j hj h0
      by_cases hpji : (j - 1) / 2 = i
      · omega
      · exact hA j hj h0 hpji

theorem heapProp_downA (l : List Entry) (h : heapProp l) (i : Nat) :
    ∀ j, j < l.length → 0 < j → (j - 1) / 2 ≠ i → sc l j ≤ sc l ((j - 1) / 2) :=
  fun j hj h0 _ => h j hj h0

theorem heapProp_downB (l : List Entry) (h : heapProp l) (i : Nat) :
    0 < i → ∀ j, j < l.length → 0 < j → (j - 1) / 2 = i →
      sc l j ≤ sc l ((i - 1) / 2) := by
  intro h0 j hj h0j hpj
  have h1 : sc l j ≤ sc l i := by
    have := h j hj h0j
    rwa [hpj] at this
  have h2 : sc l i ≤ sc l ((i - 1) / 2) := h i (by omega) h0
  omega

/-- The update/eviction re-heapify pattern of priority_queue.c: from a
heap broken only at the edges incident to slot `i` — with the children of
`i` still bounded by `i`'s parent — `pq_heapify_up(i)` followed by
`pq_heapify_down(i)` restores the heap. -/
theorem fixAt_heap (now : Int) (l : List Entry) (i : Nat) (hi : i < l.length)
    (hA : ∀ j, j < l.length → 0 < j → j ≠ i → (j - 1) / 2 ≠ i →
      sc l j ≤ sc l ((j - 1) / 2))
    (hB : 0 < i → ∀ j, j < l.length → 0 < j → (j - 1) / 2 = i →
      sc l j ≤ sc l ((i - 1) / 2)) :
    ∃ l2, heapifyUp now l i = some l2 ∧ l2.length = l.length ∧
      heapProp (heapifyDown l2 i) ∧ (heapifyDown l2 i).length = l.length := by
  cases i with
  | zero =>
    refine ⟨l, rfl, rfl, ?_, ?_⟩
    · exact (heapifyDownF_heap _ l 0 (le_refl _)
        (fun j hj h0 hpj => hA j hj h0 (by omega) hpj) (by omega)).2
    · exact (heapifyDownF_heap _ l 0 (le_refl _)
        (fun j hj h0 hpj => hA j hj h0 (by omega) hpj) (by omega)).1
  | succ k =>
    set i := k + 1 with hidef
    have h0i : 0 < i := by omega
    obtain ⟨ei, hei⟩ := get?_isSome_of_lt l i hi
    obtain ⟨ep, hep⟩ := get?_isSome_of_lt l ((i - 1) / 2) (by omega)
    by_cases hcmp : ep.priority_score < ei.priority_score
    · -- the value rose: sift up fully restores, then sift down is a no-op
      have hA2 : ∀ j, j < l.length → 0 < j → j ≠ i →
          sc l j ≤ sc l ((j - 1) / 2) := by
        intro j hj h0 hji
        by_cases hpj : (j - 1) / 2 = i
        · have h1 := hB h0i j hj h0 hpj
          rw [hpj]
          have h2 : sc l ((i - 1) / 2) = ep.priority_score :=
            sc_of_get l _ ep hep
          have h3 : sc l i = ei.priority_score := sc_of_get l _ ei hei
          omega
        · exact hA j hj h0 hji hpj
      obtain ⟨l2, hup, hlen2, hheap2⟩ :=
        heapifyUpF_heap now i l i (le_refl i) hi hA2
          (fun j hj h0 hpj _ => hB h0i j hj h0 hpj)
      refine ⟨l2, hup, hlen2, ?_, ?_⟩
      · exact (heapifyDownF_heap _ l2 i (le_refl _)
          (heapProp_downA l2 hheap2 i) (heapProp_downB l2 hheap2 i)).2
      · show (heapifyDownF (l2.length - i) l2 i).length = l.length
        rw [(heapifyDownF_heap _ l2 i (le_refl _)
          (heapProp_downA l2 hheap2 i) (heapProp_downB l2 hheap2 i)).1, hlen2]
    · -- the value did not rise: sift up is a no-op, sift down restores
      have hup : heapifyUp now l i = some l := by
        simp only [heapifyUp, heapifyUpF, hei, hep, if_neg hcmp]
      refine ⟨l, hup, rfl, ?_, ?_⟩
      · refine (heapifyDownF_heap _ l i (le_refl _) ?_ (fun _ => hB h0i)).2
        intro j hj h0 hpj
        by_cases hji : j = i
        · subst hji
          rw [sc_of_get l i ei hei, sc_of_get l ((i - 1) / 2) ep hep]
          omega
        · exact hA j hj h0 hji hpj
      · refine (heapifyDownF_heap _ l i (le_refl _) ?_ (fun _ => hB h0i)).1
        intro j hj h0 hpj
        by_cases hji : j = i
        · subst hji
          rw [sc_of_get l i ei hei, sc_of_get l ((i - 1) / 2) ep hep]
          omega
        · exact hA j hj h0 hji hpj

/-- Appending a fresh entry at the end of a heap and sifting it up
preserves the heap property (the `pq_insert` tail). -/
theorem append_heapifyUp_heap (now : Int) (l : List Entry) (e : Entry)
    (hheap : heapProp l) :
    ∃ l2, heapifyUp now (l ++ [e]) l.length = some l2 ∧
      l2.length = l.length + 1 ∧ heapProp l2 := by
  have hlen : l.length < (l ++ [e]).length := by simp
  have hA : ∀ j, j < (l ++ [e]).length → 0 < j → j ≠ l.length →
      sc (l ++ [e]) j ≤ sc (l ++ [e]) ((j - 1) / 2) := by
    intro j hj h0 hji
    simp only [List.length_append, List.length_singleton] at hj
    have hjlt : j < l.length := by omega
    rw [sc_append_left l e j hjlt, sc_append_left l e ((j - 1) / 2) (by omega)]
    exact hheap j hjlt h0
  have hB : ∀ j, j < (l ++ [e]).length → 0 < j → (j - 1) / 2 = l.length →
      0 < l.length → sc (l ++ [e]) j ≤ sc (l ++ [e]) ((l.length - 1) / 2) := by
    intro j hj h0 hpj hl0
    simp only [List.length_append, List.length_singleton] at hj
    omega
  obtain ⟨l2, hup, hlen2, hheap2⟩ :=
    heapifyUpF_heap now l.length (l ++ [e]) l.length (le_refl _) hlen hA hB
  refine ⟨l2, hup, ?_, hheap2⟩
  rw [hlen2]
  simp

theorem findCmdIdx_bound (cmd : Cmd) : ∀ (l : List Entry) (k i : Nat),
    findCmdIdx cmd l k = some i → k ≤ i ∧ i < k + l.length
  | [], k, i, h => by simp [findCmdIdx] at h
  | e :: rest, k, i, h => by
    simp only [findCmdIdx] at h
    by_cases hc : e.command = cmd
    · rw [if_pos hc] at h
      obtain rfl := Option.some_inj.mp h
      simp
    · rw [if_neg hc] at h
      have := findCmdIdx_bound cmd rest (k + 1) i h
      constructor <;> [omega; (simp only [List.length_cons]; omega)]

theorem minIdxGo_bound : ∀ (rest : List Entry) (i : Nat) (bsc : Int) (best : Nat),
    best < i → minIdxGo rest i bsc best < i + rest.length ∨
      minIdxGo rest i bsc best = best
  | [], i, bsc, best, _ => Or.inr rfl
  | e :: rest, i, bsc, best, hlt => by
    simp only [minIdxGo]
    by_cases hc : e.priority_score < bsc
    · rw [if_pos hc]
      rcases minIdxGo_bound rest (i + 1) e.priority_score i (by omega) with h | h
      · left
        simp only [List.length_cons]
        omega
      · left
        rw [h]
        simp only [List.length_cons]
        omega
    · rw [if_neg hc]
      rcases minIdxGo_bound rest (i + 1) bsc best (by omega) with h | h
      · left
        simp only [List.length_cons]
        omega
      · right
        exact h

theorem minIdx_lt (l : List Entry) (hne : l ≠ []) : minIdx l < l.length := by
  cases l with
  | nil => exact absurd rfl hne
  | cons e rest =>
    simp only [minIdx, List.length_cons]
    rcases minIdxGo_bound rest 1 e.priority_score 0 (by omega) with h | h
    · omega
    · rw [h]
      omega

/-- Overwriting a slot of a heap and re-heapifying both ways (the
existing-command branch of `pq_insert` / `pq_update_command`). -/
theorem setFix_heap (now : Int) (l : List Entry) (i : Nat) (e : Entry)
    (hheap : heapProp l) (hi : i < l.length) :
    ∃ l2, heapifyUp now (l.set i e) i = some l2 ∧
      heapProp (heapifyDown l2 i) ∧ (heapifyDown l2 i).length = l.length := by
  have hset : ∀ j, j ≠ i → sc (l.set i e) j = sc l j := by
    intro j hj
    rw [sc_set]
    exact if_neg (fun hc => hj hc.1.symm)
  obtain ⟨l2, hup, hlen2, hh, hlen⟩ :=
    fixAt_heap now (l.set i e) i (by simpa using hi)
      (by
        intro j hj h0 hji hpji
        simp only [List.length_set] at hj
        rw [hset j hji, hset ((j - 1) / 2) hpji]
        exact hheap j hj h0)
      (by
        intro h0i j hj h0 hpj
        simp only [List.length_set] at hj
        have hji : j ≠ i := by omega
        have hpne : (i - 1) / 2 ≠ i := by omega
        rw [hset j hji, hset ((i - 1) / 2) hpne]
        have h1 : sc l j ≤ sc l i := by
          have := hheap j hj h0
          rwa [hpj] at this
        have h2 : sc l i ≤ sc l ((i - 1) / 2) := hheap i hi h0i
        omega)
  refine ⟨l2, hup, hh, ?_⟩
  rw [hlen]
  simp

/-- The eviction step of `pq_insert` in the non-crashing case: replace
the minimum slot `m` by the last entry, shrink, and re-heapify both ways
from `m`. -/
theorem evictFix_heap (now : Int) (l : List Entry) (m : Nat) (lastE : Entry)
    (hheap : heapProp l) (hm : m < l.length - 1)
    (_hlast : l.get? (l.length - 1) = some lastE) :
    ∃ l2, heapifyUp now ((l.set m lastE).dropLast) m = some l2 ∧
      heapProp (heapifyDown l2 m) ∧
      (heapifyDown l2 m).length = l.length - 1 := by
  have hlen1 : ((l.set m lastE).dropLast).length = l.length - 1 := by simp
  have hsc1 : ∀ j, j < l.length - 1 → j ≠ m →
      sc ((l.set m lastE).dropLast) j = sc l j := by
    intro j hj hjm
    rw [sc_dropLast _ j (by simpa using hj), sc_set]
    exact if_neg (fun hc => hjm hc.1.symm)
  obtain ⟨l2, hup, hlen2, hh, hlen⟩ :=
    fixAt_heap now ((l.set m lastE).dropLast) m (by omega)
      (by
        intro j hj h0 hjm hpjm
        rw [hlen1] at hj
        rw [hsc1 j hj hjm, hsc1 ((j - 1) / 2) (by omega) hpjm]
        exact hheap j (by omega) h0)
      (by
        intro h0m j hj h0 hpj
        rw [hlen1] at hj
        have hjm : j ≠ m := by omega
        have hpne : (m - 1) / 2 ≠ m := by omega
        rw [hsc1 j hj hjm, hsc1 ((m - 1) / 2) (by omega) hpne]
        have h1 : sc l j ≤ sc l m := by
          have := hheap j (by omega) h0
          rwa [hpj] at this
        have h2 : sc l m ≤ sc l ((m - 1) / 2) := hheap m (by omega) h0m
        omega)
  refine ⟨l2, hup, hh, ?_⟩
  rw [hlen, hlen1]

/-- `pq_extract_max` preserves the heap property and never grows the
queue. -/
theorem pqExtractMax_heap (l : List Entry) (hheap : heapProp l) :
    heapProp (pqExtractMax l).2 ∧ (pqExtractMax l).2.length ≤ l.length := by
  cases hl : l with
  | nil => exact ⟨by intro j hj h0; simp [pqExtractMax] at hj, by simp [pqExtractMax]⟩
  | cons e rest =>
    rw [← hl]
    have hlen0 : 0 < l.length := by rw [hl]; simp
    obtain ⟨lastE, hlast⟩ := get?_isSome_of_lt l (l.length - 1) (by omega)
    have hred : (pqExtractMax l).2 =
        (if 0 < ((l.set 0 lastE).dropLast).length then
          heapifyDown ((l.set 0 lastE).dropLast) 0
        else (l.set 0 lastE).dropLast) := by
      rw [hl] at hlast ⊢
      simp only [pqExtractMax, hlast]
    rw [hred]
    by_cases hpos : 0 < ((l.set 0 lastE).dropLast).length
    · rw [if_pos hpos]
      have hsc1 : ∀ j, j < l.length - 1 → j ≠ 0 →
          sc ((l.set 0 lastE).dropLast) j = sc l j := by
        intro j hj hj0
        rw [sc_dropLast _ j (by simpa using hj), sc_set]
        exact if_neg (fun hc => hj0 hc.1.symm)
      have hd := heapifyDownF_heap (((l.set 0 lastE).dropLast).length - 0)
        ((l.set 0 lastE).dropLast) 0 (le_refl _)
        (by
          intro j hj h0 hpj
          simp only [List.length_dropLast, List.length_set] at hj
          rw [hsc1 j (by omega) (by omega), hsc1 ((j - 1) / 2) (by omega) hpj]
          exact hheap j (by omega) h0)
        (by omega)
      refine ⟨hd.2, ?_⟩
      show (heapifyDownF (((l.set 0 lastE).dropLast).length - 0)
        ((l.set 0 lastE).dropLast) 0).length ≤ l.length
      rw [hd.1]
      simp only [List.length_dropLast, List.length_set]
      omega
    · rw [if_neg hpos]
      refine ⟨?_, by simp⟩
      intro j hj h0
      omega

/-- `pq_insert` preserves the heap property and the capacity bound
whenever it completes without the eviction crash. -/
theorem pqInsert_heap (now : Int) (l : List Entry) (cmd : Cmd) (freq ts : Int)
    (hheap : heapProp l) (hcap : l.length ≤ pqCapacity) :
    ∀ l', pqInsert now l cmd freq ts = some l' →
      heapProp l' ∧ l'.length ≤ pqCapacity := by
  intro l' h
  cases hfind : findCmdIdx cmd l 0 with
  | some i =>
    have hi : i < l.length := by
      have := findCmdIdx_bound cmd l 0 i hfind
      omega
    obtain ⟨l2, hup, hh, hlen⟩ := setFix_heap now l i
      ⟨cmd, ts, freq, calcPriority now freq ts⟩ hheap hi
    rw [show pqInsert now l cmd freq ts =
        (match heapifyUp now (l.set i ⟨cmd, ts, freq, calcPriority now freq ts⟩) i with
          | some l2 => some (heapifyDown l2 i)
          | none => none) by simp only [pqInsert, hfind], hup] at h
    obtain rfl := Option.some_inj.mp h
    exact ⟨hh, by rw [hlen]; exact hcap⟩
  | none =>
    by_cases hfull : pqCapacity ≤ l.length
    · have hlen0 : 0 < l.length := by
        simp only [pqCapacity] at hfull
        omega
      obtain ⟨lastE, hlast⟩ := get?_isSome_of_lt l (l.length - 1) (by omega)
      by_cases hm : minIdx l = l.length - 1
      · -- the crash case cannot have produced a result
        exfalso
        have hoob : heapifyUp now ((l.set (minIdx l) lastE).dropLast) (minIdx l)
            = none := by
          apply heapifyUpF_oob
          · simp only [pqCapacity] at hfull
            omega
          · simp only [List.length_dropLast, List.length_set]
            omega
        rw [show pqInsert now l cmd freq ts = none by
          simp only [pqInsert, hfind, if_pos hfull, hlast, hoob]] at h
        exact absurd h (by simp)
      · have hmlt : minIdx l < l.length - 1 := by
          have := minIdx_lt l (by intro hcon; rw [hcon] at hlen0; simp at hlen0)
          omega
        obtain ⟨l2, hup, hh2, hlen2⟩ :=
          evictFix_heap now l (minIdx l) lastE hheap hmlt hlast
        obtain ⟨l3, hup3, hlen3, hheap3⟩ :=
          append_heapifyUp_heap now (heapifyDown l2 (minIdx l))
            (mkEntry now cmd freq ts) hh2
        rw [show pqInsert now l cmd freq ts =
            heapifyUp now (heapifyDown l2 (minIdx l) ++ [mkEntry now cmd freq ts])
              (heapifyDown l2 (minIdx l)).length by
          simp only [pqInsert, hfind, if_pos hfull, hlast, hup], hup3] at h
        obtain rfl := Option.some_inj.mp h
        refine ⟨hheap3, ?_⟩
        rw [hlen3, hlen2]
        simp only [pqCapacity] at hfull hcap ⊢
        omega
    · obtain ⟨l3, hup3, hlen3, hheap3⟩ :=
        append_heapifyUp_heap now l (mkEntry now cmd freq ts) hheap
      rw [show pqInsert now l cmd freq ts =
          heapifyUp now (l ++ [mkEntry now cmd freq ts]) l.length by
        simp only [pqInsert, hfind, if_neg hfull], hup3] at h
      obtain rfl := Option.some_inj.mp h
      refine ⟨hheap3, ?_⟩
      rw [hlen3]
      simp only [pqCapacity] at hfull ⊢
      omega

/-- `pq_update_command` preserves the heap property and the capacity
bound whenever it completes. -/
theorem pqUpdateCommand_heap (now : Int) (l : List Entry) (cmd : Cmd)
    (hheap : heapProp l) (hcap : l.length ≤ pqCapacity) :
    ∀ l', pqUpdateCommand now l cmd = some l' →
      heapProp l' ∧ l'.length ≤ pqCapacity := by
  intro l' h
  cases hfind : findCmdIdx cmd l 0 with
  | some i =>
    have hi : i < l.length := by
      have := findCmdIdx_bound cmd l 0 i hfind
      omega
    obtain ⟨e0, he0⟩ := get?_isSome_of_lt l i hi
    obtain ⟨l2, hup, hh, hlen⟩ := setFix_heap now l i
      ⟨e0.command, now, e0.frequency + 1,
        calcPriority now (e0.frequency + 1) now⟩ hheap hi
    rw [show pqUpdateCommand now l cmd =
        (match heapifyUp now (l.set i ⟨e0.command, now, e0.frequency + 1,
            calcPriority now (e0.frequency + 1) now⟩) i with
          | some l2 => some (heapifyDown l2 i)
          | none => none) by simp only [pqUpdateCommand, hfind, he0], hup] at h
    obtain rfl := Option.some_inj.mp h
    exact ⟨hh, by rw [hlen]; exact hcap⟩
  | none =>
    rw [show pqUpdateCommand now l cmd = pqInsert now l cmd 1 now by
      simp only [pqUpdateCommand, hfind]] at h
    exact pqInsert_heap now l cmd 1 now hheap hcap l' h

theorem runPQ_from_none (ops : List PQOp) :
    ops.foldl (fun acc op => match acc with
      | some l => runPQOp l op
      | none => none) none = (none : Option (List Entry)) := by
  induction ops with
  | nil => rfl
  | cons op rest ih => simpa using ih

/-- C6: after every sequence of `pq_insert`, `pq_update_command` and
`pq_extract_max` operations starting from the empty queue that completes
without crashing, the max-heap property holds over all occupied slots and
the size never exceeds the capacity of 100. -/
theorem claim6_heap_invariant (ops : List PQOp) (l : List Entry)
    (h : runPQ ops = some l) : heapProp l ∧ l.length ≤ pqCapacity := by
  suffices hgen : ∀ (ops2 : List PQOp) (acc : List Entry), heapProp acc →
      acc.length ≤ pqCapacity →
      ∀ l2, ops2.foldl (fun a op => match a with
        | some x => runPQOp x op
        | none => none) (some acc) = some l2 →
      heapProp l2 ∧ l2.length ≤ pqCapacity by
    exact hgen ops [] (by intro j hj h0; simp at hj) (by simp [pqCapacity]) l h
  intro ops2
  induction ops2 with
  | nil =>
    intro acc hh hc l2 h2
    obtain rfl := Option.some_inj.mp h2
    exact ⟨hh, hc⟩
  | cons op rest ih =>
    intro acc hh hc l2 h2
    simp only [List.foldl_cons] at h2
    cases hop : runPQOp acc op with
    | none =>
      rw [hop, runPQ_from_none rest] at h2
      exact absurd h2 (by simp)
    | some acc2 =>
      rw [hop] at h2
      refine ih acc2 ?_ ?_ l2 h2
      · cases op with
        | ins now cmd freq ts => exact (pqInsert_heap now acc cmd freq ts hh hc acc2 hop).1
        | upd now cmd => exact (pqUpdateCommand_heap now acc cmd hh hc acc2 hop).1
        | ext =>
          obtain rfl : (pqExtractMax acc).2 = acc2 := Option.some_inj.mp hop
          exact (pqExtractMax_heap acc hh).1
      · cases op with
        | ins now cmd freq ts => exact (pqInsert_heap now acc cmd freq ts hh hc acc2 hop).2
        | upd now cmd => exact (pqUpdateCommand_heap now acc cmd hh hc acc2 hop).2
        | ext =>
          obtain rfl : (pqExtractMax acc).2 = acc2 := Option.some_inj.mp hop
          have := (pqExtractMax_heap acc hh).2
          omega

/-- Witness for C6 at a concrete input: three inserts, one extraction and
one usage update, ending in a two-entry heap. -/
theorem claim6_witness :
    heapProp [⟨[99], 0, 3, 500⟩, ⟨[97], 3600, 2, 400⟩] ∧
      ([⟨[99], 0, 3, 500⟩, ⟨[97], 3600, 2, 400⟩] : List Entry).length ≤ pqCapacity :=
  claim6_heap_invariant
    [.ins 0 [97] 1 0, .ins 0 [98] 5 0, .ins 0 [99] 3 0, .ext, .upd 3600 [97]]
    [⟨[99], 0, 3, 500⟩, ⟨[97], 3600, 2, 400⟩] (by decide)

/-! ## Best-completion DFS lemmas (trie.c) -/

/-- Total node count of a DFS stack. -/
def sumSizes (st : List TrieNode) : Nat := (st.map sizeTN).sum

/-- Number of children in a child map. -/
def countCL : ChildList → Nat
  | .nil => 0
  | .cons _ _ rest => countCL rest + 1

/-- Membership of a node among the children of a child map. -/
def memCL (x : TrieNode) : ChildList → Prop
  | .nil => False
  | .cons _ n rest => x = n ∨ memCL x rest

theorem sizeTN_pos : ∀ n : TrieNode, 0 < sizeTN n
  | .mk cl _ _ _ _ => by simp [sizeTN]

theorem countCL_le_sizeCL : ∀ cl : ChildList, countCL cl ≤ sizeCL cl
  | .nil => le_refl _
  | .cons _ n rest => by
    have h1 := countCL_le_sizeCL rest
    have h2 := sizeTN_pos n
    simp only [countCL, sizeCL]
    omega

theorem length_le_sumSizes (st : List TrieNode) : st.length ≤ sumSizes st := by
  induction st with
  | nil => simp [sumSizes]
  | cons n rest ih =>
    have := sizeTN_pos n
    simp only [sumSizes, List.map_cons, List.sum_cons, List.length_cons]
    simp only [sumSizes] at ih
    omega

theorem sumSizes_cons (n : TrieNode) (st : List TrieNode) :
    sumSizes (n :: st) = sizeTN n + sumSizes st := by
  simp [sumSizes]

theorem sizeCL_as_mem : ∀ (cl : ChildList) (x : TrieNode), memCL x cl →
    sizeTN x ≤ sizeCL cl
  | .nil, x, h => absurd h (by simp [memCL])
  | .cons _ n rest, x, h => by
    rcases h with rfl | h
    · simp only [sizeCL]
      omega
    · have := sizeCL_as_mem rest x h
      simp only [sizeCL]
      omega

theorem termNodesCL_mem : ∀ (cl : ChildList) (m : TrieNode),
    m ∈ termNodesCL cl ↔ ∃ n, memCL n cl ∧ m ∈ termNodes n
  | .nil, m => by simp [termNodesCL, memCL]
  | .cons k n rest, m => by
    simp only [termNodesCL, List.mem_append]
    constructor
    · rintro (h | h)
      · exact ⟨n, Or.inl rfl, h⟩
      · obtain ⟨n2, hn2, hm⟩ := (termNodesCL_mem rest m).mp h
        exact ⟨n2, Or.inr hn2, hm⟩
    · rintro ⟨n2, (rfl | hn2), hm⟩
      · exact Or.inl hm
      · exact Or.inr ((termNodesCL_mem rest m).mpr ⟨n2, hn2, hm⟩)

/-- Characterization of a non-dropping `pushKids` run: when the target
960-entry budget is not hit, the resulting stack holds exactly the
children on top of the old stack. -/
theorem pushKids_spec : ∀ (cl : ChildList) (st : List TrieNode) (top : Nat),
    top = st.length → st.length + countCL cl ≤ 999 →
    (pushKids cl st top).2 = (pushKids cl st top).1.length ∧
    sumSizes (pushKids cl st top).1 = sizeCL cl + sumSizes st ∧
    (∀ x, x ∈ (pushKids cl st top).1 ↔ memCL x cl ∨ x ∈ st)
  | .nil, st, top, htop, _ => by
    refine ⟨htop, by simp [pushKids, sizeCL], ?_⟩
    intro x
    simp [pushKids, memCL]
  | .cons k n rest, st, top, htop, hbound => by
    have hlt : top < 999 := by
      simp only [countCL] at hbound
      omega
    have hstep : pushKids (.cons k n rest) st top =
        pushKids rest (n :: st) (top + 1) := by
      simp only [pushKids, if_pos hlt]
    obtain ⟨h1, h2, h3⟩ := pushKids_spec rest (n :: st) (top + 1)
      (by simp [htop]) (by simp only [List.length_cons, countCL] at hbound ⊢; omega)
    rw [hstep]
    refine ⟨h1, ?_, ?_⟩
    · rw [h2, sumSizes_cons]
      simp only [sizeCL]
      omega
    · intro x
      rw [h3 x]
      simp only [memCL, List.mem_cons]
      tauto

theorem termNodes_mk_mem (cl : ChildList) (e : Bool) (fc : Option Cmd)
    (fr lu : Int) (m : TrieNode) :
    m ∈ termNodes (.mk cl e fc fr lu) ↔
      (e = true ∧ m = .mk cl e fc fr lu) ∨ m ∈ termNodesCL cl := by
  cases e <;> simp [termNodes]

/-- Invariant of the best-completion DFS loop: with enough fuel, a stack
small enough that the 999-slot bound never drops a child, an accurate
`stack_top` counter, non-negative terminal frequencies and a consistent
accumulator, the loop returns `none` exactly when it started empty-handed
over a terminal-free stack, and otherwise returns a terminal node (or the
incoming accumulator) of maximal score. -/
theorem dfsLoop_spec (now : Int) : ∀ (fuel : Nat) (stack : List TrieNode)
    (top : Nat) (bs : Int) (best : Option TrieNode),
    sumSizes stack ≤ fuel → sumSizes stack ≤ 999 → top = stack.length →
    (∀ n ∈ stack, ∀ bn ∈ termNodes n, 0 ≤ TrieNode.frequency bn) →
    ((bs = -1 ∧ best = none) ∨ (∃ b0, best = some b0 ∧ bs = complScore now b0)) →
    (match dfsLoop now fuel stack top bs best with
     | none => best = none ∧ ∀ n ∈ stack, ∀ m ∈ termNodes n, False
     | some bn => (best = some bn ∨ ∃ n ∈ stack, bn ∈ termNodes n) ∧
         bs ≤ complScore now bn ∧
         (∀ n ∈ stack, ∀ m ∈ termNodes n, complScore now m ≤ complScore now bn))
  | fuel, [], top, bs, best, _, _, _, _, hacc => by
    have hres : dfsLoop now fuel [] top bs best = best := by cases fuel <;> rfl
    rw [hres]
    rcases hacc with ⟨rfl, rfl⟩ | ⟨b0, rfl, hbs⟩
    · exact ⟨rfl, by simp⟩
    · exact ⟨Or.inl rfl, le_of_eq hbs, by simp⟩
  | 0, node :: rest, top, bs, best, hfuel, _, _, _, _ => by
    exfalso
    have h1 := sizeTN_pos node
    rw [sumSizes_cons] at hfuel
    omega
  | fuel + 1, .mk cl e fc fr lu :: rest, top, bs, best,
      hfuel, hbound, htop, hwf, hacc => by
    have hszpos := sizeTN_pos (.mk cl e fc fr lu)
    have hsize : sizeTN (.mk cl e fc fr lu) = 1 + sizeCL cl := rfl
    rw [sumSizes_cons] at hfuel hbound
    have hlenrest := length_le_sumSizes rest
    have hcnt := countCL_le_sizeCL cl
    have htop' : top - 1 = rest.length := by
      simp only [List.length_cons] at htop
      omega
    have hpkb : rest.length + countCL cl ≤ 999 := by omega
    rcases hpk : pushKids cl rest (top - 1) with ⟨st2, top2⟩
    obtain ⟨hp1, hp2, hp3⟩ := pushKids_spec cl rest (top - 1) htop' hpkb
    rw [hpk] at hp1 hp2 hp3
    simp only at hp1 hp2 hp3
    have hsum2 : sumSizes st2 = sizeCL cl + sumSizes rest := hp2
    have hwf2 : ∀ n ∈ st2, ∀ bn ∈ termNodes n, 0 ≤ TrieNode.frequency bn := by
      intro n hn bn hbn
      rcases (hp3 n).mp hn with hmem | hmem
      · refine hwf (.mk cl e fc fr lu) (by simp) bn ?_
        rw [termNodes_mk_mem]
        exact Or.inr ((termNodesCL_mem cl bn).mpr ⟨n, hmem, hbn⟩)
      · exact hwf n (by simp [hmem]) bn hbn
    have hnodewf : e = true → 0 ≤ fr := by
      intro her
      have := hwf (.mk cl e fc fr lu) (by simp) (.mk cl e fc fr lu) ?_
      · simpa [TrieNode.frequency] using this
      · rw [termNodes_mk_mem]
        exact Or.inl ⟨her, rfl⟩
    have hscore : complScore now (.mk cl e fc fr lu) =
        fr * 100 + (if now - lu < 3600 then 50 else 0) := rfl
    -- the step equation, by cases on the terminal test and the comparison
    have hmain : ∀ (bs2 : Int) (best2 : Option TrieNode),
        ((bs2 = -1 ∧ best2 = none) ∨
          (∃ b0, best2 = some b0 ∧ bs2 = complScore now b0)) →
        bs ≤ bs2 →
        (best2 = best ∨ (e = true ∧ best2 = some (.mk cl e fc fr lu))) →
        (e = true → complScore now (.mk cl e fc fr lu) ≤ bs2) →
        (best2 = none → best = none ∧ e = false) →
        (match dfsLoop now fuel st2 top2 bs2 best2 with
         | none => best = none ∧
             ∀ n ∈ (.mk cl e fc fr lu :: rest), ∀ m ∈ termNodes n, False
         | some bn => (best = some bn ∨
               ∃ n ∈ (.mk cl e fc fr lu :: rest), bn ∈ termNodes n) ∧
             bs ≤ complScore now bn ∧
             (∀ n ∈ (.mk cl e fc fr lu :: rest), ∀ m ∈ termNodes n,
               complScore now m ≤ complScore now bn)) := by
      intro bs2 best2 hacc2 hble h2b h2sc h2none
      have hrec := dfsLoop_spec now fuel st2 top2 bs2 best2
        (by omega) (by omega) hp1 hwf2 hacc2
      cases hres : dfsLoop now fuel st2 top2 bs2 best2 with
      | none =>
        rw [hres] at hrec
        obtain ⟨hb2, hterms⟩ := hrec
        obtain ⟨hbnone, hef⟩ := h2none hb2
        refine ⟨hbnone, ?_⟩
        intro n hn m hm
        rcases List.mem_cons.mp hn with rfl | hn'
        · rw [termNodes_mk_mem] at hm
          rcases hm with ⟨her, _⟩ | hm
          · rw [her] at hef
            exact absurd hef (by simp)
          · obtain ⟨n2, hn2, hm2⟩ := (termNodesCL_mem cl m).mp hm
            exact hterms n2 ((hp3 n2).mpr (Or.inl hn2)) m hm2
        · exact hterms n ((hp3 n).mpr (Or.inr hn')) m hm
      | some bn =>
        rw [hres] at hrec
        obtain ⟨hbmem, hbsle, hmax⟩ := hrec
        refine ⟨?_, by omega, ?_⟩
        · rcases hbmem with hbeq | ⟨n, hn, hbn⟩
          · rcases h2b with rfl | ⟨her, h2s⟩
            · exact Or.inl hbeq
            · rw [h2s] at hbeq
              obtain rfl := Option.some_inj.mp hbeq.symm
              refine Or.inr ⟨.mk cl e fc fr lu, by simp, ?_⟩
              rw [termNodes_mk_mem]
              exact Or.inl ⟨her, rfl⟩
          · rcases (hp3 n).mp hn with hmem | hmem
            · refine Or.inr ⟨.mk cl e fc fr lu, by simp, ?_⟩
              rw [termNodes_mk_mem]
              exact Or.inr ((termNodesCL_mem cl bn).mpr ⟨n, hmem, hbn⟩)
            · exact Or.inr ⟨n, by simp [hmem], hbn⟩
        · intro n hn m hm
          rcases List.mem_cons.mp hn with rfl | hn'
          · rw [termNodes_mk_mem] at hm
            rcases hm with ⟨her, rfl⟩ | hm
            · have := h2sc her
              omega
            · obtain ⟨n2, hn2, hm2⟩ := (termNodesCL_mem cl m).mp hm
              exact hmax n2 ((hp3 n2).mpr (Or.inl hn2)) m hm2
          · exact hmax n ((hp3 n).mpr (Or.inr hn')) m hm
    by_cases he : e = true
    · subst he
      by_cases hcmp : bs < complScore now (.mk cl true fc fr lu)
      · have hstep : dfsLoop now (fuel + 1) (.mk cl true fc fr lu :: rest) top bs best =
            dfsLoop now fuel st2 top2 (complScore now (.mk cl true fc fr lu))
              (some (.mk cl true fc fr lu)) := by
          show dfsLoop now fuel (pushKids cl rest (top - 1)).1
              (pushKids cl rest (top - 1)).2
              ((if bs < complScore now (TrieNode.mk cl true fc fr lu) then
                  (complScore now (TrieNode.mk cl true fc fr lu),
                    some (TrieNode.mk cl true fc fr lu))
                else (bs, best)).1)
              ((if bs < complScore now (TrieNode.mk cl true fc fr lu) then
                  (complScore now (TrieNode.mk cl true fc fr lu),
                    some (TrieNode.mk cl true fc fr lu))
                else (bs, best)).2) = _
          rw [hpk, if_pos hcmp]
        rw [hstep]
        exact hmain _ _ (Or.inr ⟨_, rfl, rfl⟩) (by omega)
          (Or.inr ⟨rfl, rfl⟩) (fun _ => le_refl _) (by simp)
      · have hstep : dfsLoop now (fuel + 1) (.mk cl true fc fr lu :: rest) top bs best =
            dfsLoop now fuel st2 top2 bs best := by
          show dfsLoop now fuel (pushKids cl rest (top - 1)).1
              (pushKids cl rest (top - 1)).2
              ((if bs < complScore now (TrieNode.mk cl true fc fr lu) then
                  (complScore now (TrieNode.mk cl true fc fr lu),
                    some (TrieNode.mk cl true fc fr lu))
                else (bs, best)).1)
              ((if bs < complScore now (TrieNode.mk cl true fc fr lu) then
                  (complScore now (TrieNode.mk cl true fc fr lu),
                    some (TrieNode.mk cl true fc fr lu))
                else (bs, best)).2) = _
          rw [hpk, if_neg hcmp]
        rw [hstep]
        refine hmain _ _ hacc (le_refl _) (Or.inl rfl) (fun _ => by omega) ?_
        intro hbnone
        subst hbnone
        rcases hacc with ⟨hbs, _⟩ | ⟨b0, hb0, _⟩
        · exfalso
          have h0f := hnodewf rfl
          rw [hscore] at hcmp
          rw [hbs] at hcmp
          by_cases hrec : now - lu < 3600 <;> simp [hrec] at hcmp <;> omega
        · exact absurd hb0 (by simp)
    · have hef : e = false := by
        cases e
        · rfl
        · exact absurd rfl he
      subst hef
      have hstep : dfsLoop now (fuel + 1) (.mk cl false fc fr lu :: rest) top bs best =
          dfsLoop now fuel st2 top2 bs best := by
        show dfsLoop now fuel (pushKids cl rest (top - 1)).1
            (pushKids cl rest (top - 1)).2 bs best = _
        rw [hpk]
      rw [hstep]
      exact hmain _ _ hacc (le_refl _) (Or.inl rfl) (by simp) (fun h => ⟨h, rfl⟩)

/-- The property claimed of `trie_get_best_completion` for a fixed clock
`now`, trie `t` and prefix `pfx`: when the prefix path is absent the
result is NULL; when it leads to `sub`, the result is NULL exactly when
no terminal node lies beneath `sub`, and a returned command is the stored
command of a terminal node beneath `sub` whose score is maximal among all
terminal nodes beneath `sub`. -/
def claimC1Holds (now : Int) (t : Trie) (pfx : Cmd) : Prop :=
  (walkNode t.root pfx = none → bestCompletion now t pfx = none) ∧
  (∀ sub, walkNode t.root pfx = some sub →
    (bestCompletion now t pfx = none ↔ termNodes sub = []) ∧
    (∀ c, bestCompletion now t pfx = some c →
      ∃ bn ∈ termNodes sub, TrieNode.full_command bn = some c ∧
        ∀ m ∈ termNodes sub, complScore now m ≤ complScore now bn))

/-- C1 (amended): `trie_get_best_completion` does return a maximal-score
terminal command beneath the prefix node, and NULL exactly when the
prefix is absent or no terminal lies beneath it - but only under a bound
the original claim rejects: the prefix subtree must hold at most 999
nodes (the DFS stack has 1000 slots and the push guard `stack_top < 999`
silently drops children beyond it), and its terminal nodes must be
well-formed (stored command present, non-negative frequency). -/
theorem claim1_amended (now : Int) (t : Trie) (pfx : Cmd)
    (hsub : ∀ sub, walkNode t.root pfx = some sub →
      (∀ bn ∈ termNodes sub, (TrieNode.full_command bn).isSome = true ∧
          0 ≤ TrieNode.frequency bn) ∧ sizeTN sub ≤ 999) :
    claimC1Holds now t pfx := by
  constructor
  · intro hw
    unfold bestCompletion
    rw [hw]
  · intro sub hw
    obtain ⟨hterm, hsz⟩ := hsub sub hw
    have hss : sumSizes [sub] = sizeTN sub := by
      rw [sumSizes_cons]
      simp [sumSizes]
    have hspec := dfsLoop_spec now (sizeTN sub) [sub] 1 (-1) none
      (le_of_eq hss) (by omega) (by simp)
      (by
        intro n hn bn hbn
        have hns : n = sub := by simpa using hn
        subst hns
        exact (hterm bn hbn).2)
      (Or.inl ⟨rfl, rfl⟩)
    have hbc : bestCompletion now t pfx =
        (match dfsLoop now (sizeTN sub) [sub] 1 (-1) none with
         | some bn => TrieNode.full_command bn
         | none => none) := by
      unfold bestCompletion
      rw [hw]
    cases hdfs : dfsLoop now (sizeTN sub) [sub] 1 (-1) none with
    | none =>
      rw [hdfs] at hspec hbc
      obtain ⟨-, hempty⟩ := hspec
      have hbc2 : bestCompletion now t pfx = none := hbc
      constructor
      · constructor
        · intro _
          exact List.eq_nil_iff_forall_not_mem.mpr
            (fun m hm => hempty sub (by simp) m hm)
        · intro _
          exact hbc2
      · intro c hc
        rw [hbc2] at hc
        exact Option.noConfusion hc
    | some bn =>
      rw [hdfs] at hspec hbc
      obtain ⟨hbmem, -, hmax⟩ := hspec
      have hbc2 : bestCompletion now t pfx = TrieNode.full_command bn := hbc
      have hbn_mem : bn ∈ termNodes sub := by
        rcases hbmem with h | ⟨n, hn, hmem⟩
        · exact Option.noConfusion h
        · have hns : n = sub := by simpa using hn
          subst hns
          exact hmem
      obtain ⟨c0, hc0⟩ := Option.isSome_iff_exists.mp (hterm bn hbn_mem).1
      constructor
      · constructor
        · intro hnone
          rw [hbc2, hc0] at hnone
          exact Option.noConfusion hnone
        · intro hempty
          rw [hempty] at hbn_mem
          exact absurd hbn_mem (List.not_mem_nil bn)
      · intro c hc
        rw [hbc2, hc0] at hc
        obtain rfl := Option.some_inj.mp hc
        exact ⟨bn, hbn_mem, hc0, fun m hm => hmax sub (by simp) m hm⟩

theorem claim1_witness :
    (∀ sub, walkNode (trieInsert 5 trieCreate [97]).root [] = some sub →
      (∀ bn ∈ termNodes sub, (TrieNode.full_command bn).isSome = true ∧
          0 ≤ TrieNode.frequency bn) ∧ sizeTN sub ≤ 999) ∧
    claimC1Holds 7 (trieInsert 5 trieCreate [97]) [] := by
  have hhyp : ∀ sub, walkNode (trieInsert 5 trieCreate [97]).root [] = some sub →
      (∀ bn ∈ termNodes sub, (TrieNode.full_command bn).isSome = true ∧
          0 ≤ TrieNode.frequency bn) ∧ sizeTN sub ≤ 999 := by
    intro sub hsub
    have h2 : some ((trieInsert 5 trieCreate [97]).root) = some sub := hsub
    obtain rfl := Option.some_inj.mp h2
    exact ⟨by decide, by decide⟩
  exact ⟨hhyp, claim1_amended 7 (trieInsert 5 trieCreate [97]) [] hhyp⟩

/-! ## C1 counterexample: a 1999-node caterpillar overflows the DFS stack

One long chain of byte-98 children, each chain node also carrying a
terminal byte-97 leaf.  Walking the chain pushes one pending leaf per
level, so at depth 998 the `stack_top < 999` guard drops the deepest
(highest-scoring) terminal node. -/

/-- Terminal leaf reached by byte 97 at depth `d` of the caterpillar:
frequency 1, last used at time 0. -/
def leafN (d : Nat) : TrieNode :=
  .mk .nil true (some (List.replicate d 98 ++ [97])) 1 0

/-- The deep terminal at the end of the byte-98 chain: frequency 10, so
its score dominates every leaf. -/
def deepT : TrieNode := .mk .nil true (some (List.replicate 999 98)) 10 0

/-- Caterpillar segment at depth `d` with `r` chain steps left: child 97
is a terminal leaf, child 98 continues the chain, ending in `deepT`. -/
def catAux : Nat → Nat → TrieNode
  | _, 0 => deepT
  | d, r + 1 =>
      .mk (.cons 97 (leafN d) (.cons 98 (catAux (d + 1) r) .nil)) false none 0 0

/-- The counterexample trie: 999 chain nodes, 999 leaves, one deep
terminal - 1999 nodes in the root subtree. -/
def catTrie : Trie := ⟨catAux 0 999, 1000⟩

/-- Pending leaves on the DFS stack after walking `k` chain steps
(deepest leaf on top). -/
def leafStack : Nat → List TrieNode
  | 0 => []
  | k + 1 => leafN k :: leafStack k

theorem sizeTN_catAux : ∀ d r, sizeTN (catAux d r) = 2 * r + 1
  | _, 0 => rfl
  | d, r + 1 => by
    show 1 + (sizeTN (leafN d) + (sizeTN (catAux (d + 1) r) + 0)) = 2 * (r + 1) + 1
    rw [sizeTN_catAux (d + 1) r]
    show 1 + (1 + (2 * r + 1 + 0)) = 2 * (r + 1) + 1
    omega

theorem deepT_mem_catAux : ∀ d r, deepT ∈ termNodes (catAux d r)
  | _, 0 => by
    show deepT ∈ [deepT] ++ ([] : List TrieNode)
    simp
  | d, r + 1 => by
    have hrec := deepT_mem_catAux (d + 1) r
    show deepT ∈ ([] : List TrieNode) ++
      (termNodes (leafN d) ++ (termNodes (catAux (d + 1) r) ++ []))
    simp only [List.nil_append, List.append_nil, List.mem_append]
    exact Or.inr hrec

theorem termNodes_catAux : ∀ d r (bn : TrieNode), bn ∈ termNodes (catAux d r) →
    bn = deepT ∨ ∃ e, bn = leafN e
  | _, 0, bn, h => by
    have h2 : bn ∈ [deepT] ++ ([] : List TrieNode) := h
    left
    simpa using h2
  | d, r + 1, bn, h => by
    have h2 : bn ∈ ([] : List TrieNode) ++
        (termNodes (leafN d) ++ (termNodes (catAux (d + 1) r) ++ [])) := h
    simp only [List.nil_append, List.append_nil, List.mem_append] at h2
    rcases h2 with h2 | h2
    · right
      refine ⟨d, ?_⟩
      have h3 : bn ∈ [leafN d] ++ ([] : List TrieNode) := h2
      simpa using h3
    · exact termNodes_catAux (d + 1) r bn h2

/-- One chain step of the DFS for `k ≤ 997`: pop the chain node, push its
leaf and the next chain node (both pushes pass the `< 999` guard). -/
theorem catStep (k f : Nat) (hk : k ≤ 997) :
    dfsLoop 1000000 (f + 1) (catAux k (999 - k) :: leafStack k) (k + 1) (-1) none =
    dfsLoop 1000000 f (catAux (k + 1) (998 - k) :: leafStack (k + 1)) (k + 2) (-1) none := by
  rw [show 999 - k = (998 - k) + 1 from by omega]
  show dfsLoop 1000000 f
      (pushKids (.cons 97 (leafN k) (.cons 98 (catAux (k + 1) (998 - k)) .nil))
        (leafStack k) ((k + 1) - 1)).1
      (pushKids (.cons 97 (leafN k) (.cons 98 (catAux (k + 1) (998 - k)) .nil))
        (leafStack k) ((k + 1) - 1)).2 (-1) none = _
  rw [Nat.add_sub_cancel]
  rw [show pushKids (.cons 97 (leafN k) (.cons 98 (catAux (k + 1) (998 - k)) .nil))
      (leafStack k) k =
      (catAux (k + 1) (998 - k) :: leafN k :: leafStack k, k + 2) from by
    simp only [pushKids]
    rw [if_pos (by omega : k < 999), if_pos (by omega : k + 1 < 999)]]
  rfl

/-- The overflow step at `k = 998`: the leaf is pushed at `stack_top`
998, but the next chain node - the subtree holding the deep terminal -
fails the `stack_top < 999` guard and is silently dropped. -/
theorem catDrop (f : Nat) :
    dfsLoop 1000000 (f + 1) (catAux 998 1 :: leafStack 998) 999 (-1) none =
    dfsLoop 1000000 f (leafStack 999) 999 (-1) none := by
  show dfsLoop 1000000 f
      (pushKids (.cons 97 (leafN 998) (.cons 98 (catAux 999 0) .nil))
        (leafStack 998) (999 - 1)).1
      (pushKids (.cons 97 (leafN 998) (.cons 98 (catAux 999 0) .nil))
        (leafStack 998) (999 - 1)).2 (-1) none = _
  rw [show pushKids (.cons 97 (leafN 998) (.cons 98 (catAux 999 0) .nil))
      (leafStack 998) (999 - 1) = (leafStack 999, 999) from by
    simp only [pushKids]
    rw [show (999 - 1 : Nat) = 998 from rfl]
    rw [if_pos (by norm_num : (998 : Nat) < 999),
      if_neg (by norm_num : ¬(999 : Nat) < 999)]
    rfl]

theorem complScore_leafN (j : Nat) : complScore 1000000 (leafN j) = 100 := by
  show (1 : Int) * 100 + (if (1000000 : Int) - 0 < 3600 then 50 else 0) = 100
  norm_num

theorem complScore_deepT : complScore 1000000 deepT = 1000 := by
  show (10 : Int) * 100 + (if (1000000 : Int) - 0 < 3600 then 50 else 0) = 1000
  norm_num

/-- Popping the first (deepest) pending leaf makes it the best node with
score 100. -/
theorem catPopLeaf (f top : Nat) :
    dfsLoop 1000000 (f + 1) (leafStack 999) top (-1) none =
    dfsLoop 1000000 f (leafStack 998) (top - 1) 100 (some (leafN 998)) := by
  show dfsLoop 1000000 f
      (pushKids .nil (leafStack 998) (top - 1)).1
      (pushKids .nil (leafStack 998) (top - 1)).2
      ((if (-1 : Int) < complScore 1000000 (leafN 998) then
          (complScore 1000000 (leafN 998), some (leafN 998))
        else (-1, none)).1)
      ((if (-1 : Int) < complScore 1000000 (leafN 998) then
          (complScore 1000000 (leafN 998), some (leafN 998))
        else (-1, none)).2) = _
  rw [if_pos (by rw [complScore_leafN]; norm_num :
    (-1 : Int) < complScore 1000000 (leafN 998))]
  rw [complScore_leafN]
  rfl

/-- Draining the remaining pending leaves never beats score 100. -/
theorem leafDrain : ∀ (j f top : Nat), j ≤ f →
    dfsLoop 1000000 f (leafStack j) top 100 (some (leafN 998)) = some (leafN 998)
  | 0, f, _, _ => by cases f <;> rfl
  | j + 1, f, top, hjf => by
    obtain ⟨f1, rfl⟩ : ∃ f1, f = f1 + 1 := ⟨f - 1, by omega⟩
    have hstep : dfsLoop 1000000 (f1 + 1) (leafStack (j + 1)) top 100 (some (leafN 998)) =
        dfsLoop 1000000 f1 (leafStack j) (top - 1) 100 (some (leafN 998)) := by
      show dfsLoop 1000000 f1
          (pushKids .nil (leafStack j) (top - 1)).1
          (pushKids .nil (leafStack j) (top - 1)).2
          ((if (100 : Int) < complScore 1000000 (leafN j) then
              (complScore 1000000 (leafN j), some (leafN j))
            else (100, some (leafN 998))).1)
          ((if (100 : Int) < complScore 1000000 (leafN j) then
              (complScore 1000000 (leafN j), some (leafN j))
            else (100, some (leafN 998))).2) = _
      rw [if_neg (by rw [complScore_leafN]; norm_num :
        ¬(100 : Int) < complScore 1000000 (leafN j))]
      rfl
    rw [hstep]
    exact leafDrain j f1 (top - 1) (by omega)

/-- Full run of the chain from depth `j` (with `m = 998 - j` chain steps
left before the drop): the DFS ends on the deepest leaf, never having
seen `deepT`. -/
theorem catRunAux : ∀ (m j f : Nat), j + m = 998 → m + 1000 ≤ f →
    dfsLoop 1000000 f (catAux j (999 - j) :: leafStack j) (j + 1) (-1) none =
      some (leafN 998)
  | 0, j, f, hj, hf => by
    obtain rfl : j = 998 := by omega
    obtain ⟨f1, rfl⟩ : ∃ f1, f = f1 + 1 := ⟨f - 1, by omega⟩
    rw [show (999 - 998 : Nat) = 1 from rfl, show (998 + 1 : Nat) = 999 from rfl,
      catDrop f1]
    obtain ⟨f2, rfl⟩ : ∃ f2, f1 = f2 + 1 := ⟨f1 - 1, by omega⟩
    rw [catPopLeaf f2 999]
    exact leafDrain 998 f2 (999 - 1) (by omega)
  | m + 1, j, f, hj, hf => by
    obtain ⟨f1, rfl⟩ : ∃ f1, f = f1 + 1 := ⟨f - 1, by omega⟩
    rw [catStep j f1 (by omega)]
    have hrec := catRunAux m (j + 1) f1 (by omega) (by omega)
    rw [show (998 - j : Nat) = 999 - (j + 1) from by omega]
    exact hrec

/-- The DFS over the whole caterpillar returns the deepest leaf. -/
theorem catResult :
    dfsLoop 1000000 1999 [catAux 0 999] 1 (-1) none = some (leafN 998) := by
  have h := catRunAux 998 0 1999 (by norm_num) (by norm_num)
  rw [show (999 - 0 : Nat) = 999 from rfl, show leafStack 0 = [] from rfl,
    show (0 + 1 : Nat) = 1 from rfl] at h
  exact h

/-- Unfolding equation for `bestCompletion` at a found prefix node. -/
theorem bestCompletion_eq (now : Int) (t : Trie) (pfx : Cmd) (sub : TrieNode)
    (hw : walkNode t.root pfx = some sub) :
    bestCompletion now t pfx =
      (match dfsLoop now (sizeTN sub) [sub] 1 (-1) none with
       | some bn => TrieNode.full_command bn
       | none => none) := by
  unfold bestCompletion
  rw [hw]

theorem catBest :
    bestCompletion 1000000 catTrie [] = some (List.replicate 998 98 ++ [97]) := by
  have h := bestCompletion_eq 1000000 catTrie [] (catAux 0 999) rfl
  rw [show sizeTN (catAux 0 999) = 1999 from by rw [sizeTN_catAux]] at h
  rw [catResult] at h
  rw [h]
  rfl

/-- C1: refuted as stated.  On the 1999-node caterpillar trie the DFS of
`trie_get_best_completion` drops the subtree of the deepest terminal
(score 1000) at the `stack_top < 999` guard and returns the deepest leaf
(score 100), so the returned command is not of maximal score among the
terminal nodes beneath the prefix: the fixed-size traversal list does
silently drop terminal nodes. -/
theorem claim1_counterexample : ¬ claimC1Holds 1000000 catTrie [] := by
  intro h
  obtain ⟨-, h2⟩ := h
  obtain ⟨-, hbest⟩ := h2 (catAux 0 999) rfl
  obtain ⟨bn, hmem, hcmd, hmax⟩ :=
    hbest (List.replicate 998 98 ++ [97]) catBest
  rcases termNodes_catAux 0 999 bn hmem with rfl | ⟨e, rfl⟩
  · have hco : some (List.replicate 999 98) =
        some (List.replicate 998 98 ++ [97]) := hcmd
    have hlists := Option.some_inj.mp hco
    rw [show (999 : Nat) = 998 + 1 from rfl, List.replicate_succ'] at hlists
    have htail := List.append_cancel_left hlists
    simp at htail
  · have hd := hmax deepT (deepT_mem_catAux 0 999)
    rw [complScore_deepT, complScore_leafN] at hd
    norm_num at hd

end ZshPlugin
